import Mathlib

/-!
Verification of the filter-engine core of the `powerbi-navigation-menu`
visual (`src/visual.ts`).

The engine is embedded shallowly:

* a `FilterValue` record mirrors the `FilterValue` interface (the optional
  JS fields `indeterminate`, `children`, `parentValue` — `undefined` in JS
  behaves as `false` / empty / absent — are modelled as `Bool`, `List`,
  `Option` with those defaults);
* host-minted selection identities (`ISelectionId`, created once per unique
  value via `createSelectionIdBuilder().withCategory(category, index)`) are
  opaque comparable tokens; they are modelled by the row index they are
  minted from, which determines them;
* hierarchy levels are lists of nodes; the node objects that
  `visual.ts` shares by reference between a level array and a parent's
  `children` array are identified here by their level index and key
  (`processData` guarantees one node per (level, key), and a child of a
  level-`i` node is a node of level `i+1`), so a parent's `children` is a
  list of keys into the next level;
* the in-place mutations of `toggleHierarchyValue`,
  `cascadeSelectionToDescendants`, `updateParentSelectionRecursive`,
  `toggleSelection` and the two clear functions become state-passing
  functions on the list of levels / list of categories.  The depth-first
  descendant cascade is rendered level by level: each touched node receives
  the same constant flags, so the level-wise rendering computes the same
  final state as the source's depth-first object walk.
-/

/-- Mirror of the `FilterValue` interface of `visual.ts`. -/
structure FilterValue where
  value : String
  identity : Nat
  selected : Bool
  indeterminate : Bool
  children : List String
  parentValue : Option String
deriving Repr, DecidableEq

/-- One hierarchy level: the `values` array of a `HierarchyLevel`. -/
abbrev HierLevel := List FilterValue

/-- The `hierarchyLevels` array of a hierarchy `FilterCategory`. -/
abbrev Hierarchy := List HierLevel

/-- JS `level.values.find(v => v.value === k)`. -/
def findValue (l : HierLevel) (k : String) : Option FilterValue :=
  l.find? (fun v => v.value == k)

/-- Mutate (functionally) the first node of a level whose key is `k`;
this is the node that `Array.prototype.find` returns in the source. -/
def updateFirst (k : String) (f : FilterValue → FilterValue) : HierLevel → HierLevel
  | [] => []
  | v :: vs => if v.value == k then f v :: vs else v :: updateFirst k f vs

/-- Level at index `i` (out of range reads give the empty level). -/
def getLevel (h : Hierarchy) (i : Nat) : HierLevel :=
  h.getD i []

/-- Replace level `i` by `f` applied to it. -/
def updateLevel (h : Hierarchy) (i : Nat) (f : HierLevel → HierLevel) : Hierarchy :=
  h.set i (f (getLevel h i))

/-- Source: `cascadeSelectionToDescendants` (visual.ts:665).  The JS walks
`filterValue.children` object references depth first, setting
`child.selected = selected; child.indeterminate = false`.  Rendered level
by level over the levels strictly below the toggled node: `ks` is the
frontier of keys reached at the current level. -/
def cascadeSelectionToDescendants (ks : List String) (sel : Bool) : List HierLevel → List HierLevel
  | [] => []
  | l :: ls =>
      (l.map (fun v => if ks.contains v.value then
                { v with selected := sel, indeterminate := false } else v)) ::
      cascadeSelectionToDescendants
        ((l.filter (fun v => ks.contains v.value)).flatMap (fun v => v.children)) sel ls

/-- Source: the `for (const level of category.hierarchyLevels)` scan of
`updateParentSelectionRecursive` (visual.ts:678): the index of the first
level containing a node with key `k` and non-empty `children` (a level that
contains `k` with empty children is passed over, as in the source). -/
def findParentIdxAux (k : String) : List HierLevel → Nat → Option Nat
  | [], _ => none
  | l :: ls, i =>
      match findValue l k with
      | some p => if p.children.isEmpty then findParentIdxAux k ls (i + 1) else some i
      | none => findParentIdxAux k ls (i + 1)

/-- Index of the level at which `updateParentSelectionRecursive` finds `k`. -/
def findParentIdx (h : Hierarchy) (k : String) : Option Nat :=
  findParentIdxAux k h 0

/-- The child objects `parent.children` refers to: the nodes of level `i`
carrying the listed keys (in `processData`-built trees every key resolves). -/
def resolveChildren (h : Hierarchy) (i : Nat) (ks : List String) : List FilterValue :=
  ks.filterMap (fun c => findValue (getLevel h i) c)

/-- Source: the tri-state recomputation body of
`updateParentSelectionRecursive` (visual.ts:681-694). -/
def recomputeFlags (cs : List FilterValue) (p : FilterValue) : FilterValue :=
  let allChildrenSelected := cs.all (fun c => c.selected)
  let anyChildSelected := cs.any (fun c => c.selected || c.indeterminate)
  if allChildrenSelected then { p with selected := true, indeterminate := false }
  else if !anyChildSelected then { p with selected := false, indeterminate := false }
  else { p with selected := false, indeterminate := true }

/-- One step of the upward recomputation: find `k`, recompute its flags
from its immediate children (read at the next level). -/
def recomputeStepAt (h : Hierarchy) (i : Nat) (k : String) : Hierarchy :=
  match findValue (getLevel h i) k with
  | none => h
  | some p =>
      let cs := resolveChildren h (i + 1) p.children
      updateLevel h i (updateFirst k (recomputeFlags cs))

/-- Source: `updateParentSelectionRecursive` (visual.ts:676-703).  `fuel`
bounds the recursion (the JS recursion terminates on built trees because
the parent chain climbs strictly towards level 0). -/
def updateParentSelectionRecursive (fuel : Nat) (h : Hierarchy) (k : String) : Hierarchy :=
  match fuel with
  | 0 => h
  | fuel + 1 =>
      match findParentIdx h k with
      | none => h
      | some i =>
          match findValue (getLevel h i) k with
          | none => h
          | some p =>
              let cs := resolveChildren h (i + 1) p.children
              let h' := updateLevel h i (updateFirst k (recomputeFlags cs))
              match p.parentValue with
              | some pk => updateParentSelectionRecursive fuel h' pk
              | none => h'

/-- The sequence of (level, key) pairs visited by
`updateParentSelectionRecursive` starting from key `k`.  The recursion
only rewrites flags, which the chain does not depend on, so the chain can
be computed statically on `h`. -/
def parentChain (fuel : Nat) (h : Hierarchy) (k : String) : List (Nat × String) :=
  match fuel with
  | 0 => []
  | fuel + 1 =>
      match findParentIdx h k with
      | none => []
      | some i =>
          match findValue (getLevel h i) k with
          | none => []
          | some p =>
              (i, k) :: (match p.parentValue with
                         | some pk => parentChain fuel h pk
                         | none => [])

/-- The flip-and-cascade prefix of `toggleHierarchyValue` (visual.ts:623-628):
flip `selected` on the clicked node (its own `indeterminate` is NOT touched
by the source) and cascade the new value to all descendants. -/
def toggleMidState (h : Hierarchy) (li : Nat) (k : String) : Hierarchy :=
  match findValue (getLevel h li) k with
  | none => h
  | some fv =>
      let newSel := !fv.selected
      let h1 := updateLevel h li (updateFirst k (fun v => { v with selected := newSel }))
      List.take (li + 1) h1 ++
        cascadeSelectionToDescendants fv.children newSel (List.drop (li + 1) h1)

/-- Source: the state-machine part of `toggleHierarchyValue`
(visual.ts:623-634): flip, cascade to descendants, then recompute the
ancestors starting from `parentValue` when present. -/
def toggleHierarchyValue (fuel : Nat) (h : Hierarchy) (li : Nat) (k : String) : Hierarchy :=
  match findValue (getLevel h li) k with
  | none => h
  | some fv =>
      let h2 := toggleMidState h li k
      match fv.parentValue with
      | some pk => updateParentSelectionRecursive fuel h2 pk
      | none => h2

/-! ### Value normalisation and the per-column builders (`processData`) -/

/-- Source: `value != null ? String(value) : "(Blank)"` — a raw cell is an
`Option String` (`none` for `null`/`undefined`/out-of-range). -/
def normalizeCell : Option String → String
  | some s => s
  | none => "(Blank)"

/-- Reading `category.values[r]` through the normaliser; a missing row of a
ragged column reads as `undefined` and hence the blank sentinel. -/
def getCell (col : List (Option String)) (r : Nat) : String :=
  normalizeCell (col.getD r none)

/-- Source: the first pass of the hierarchy branch of `processData`
(visual.ts:222-244).  The `uniqueValuesMap` insertion order is rendered by
recursion over the column with the set of already-seen keys: the first
occurrence of each canonical key creates the node, with the identity token
minted from that row index. -/
def buildLevelValuesAux : List (Option String) → Nat → List String → List FilterValue
  | [], _, _ => []
  | c :: cs, i, seen =>
      let key := normalizeCell c
      if seen.contains key then buildLevelValuesAux cs (i + 1) seen
      else { value := key, identity := i, selected := false, indeterminate := false,
             children := [], parentValue := none } :: buildLevelValuesAux cs (i + 1) (key :: seen)

/-- Deduplicated nodes of one hierarchy level, in first-seen order. -/
def buildLevelValues (col : List (Option String)) : List FilterValue :=
  buildLevelValuesAux col 0 []

/-- Source: the standalone branch of `processData` (visual.ts:340-350): the
map from canonical key to the row index of its first occurrence, in
first-seen order. -/
def firstOccAux : List (Option String) → Nat → List String → List (String × Nat)
  | [], _, _ => []
  | c :: cs, i, seen =>
      let key := normalizeCell c
      if seen.contains key then firstOccAux cs (i + 1) seen
      else (key, i) :: firstOccAux cs (i + 1) (key :: seen)

/-- First-occurrence pairs (key, first row index) of a column. -/
def firstOcc (col : List (Option String)) : List (String × Nat) :=
  firstOccAux col 0 []

/-- Source: the standalone branch of `processData` (visual.ts:352-363):
one value node per recorded unique entry, identity bound to the recorded
first-occurrence index. -/
def buildCategoryValues (col : List (Option String)) : List FilterValue :=
  (firstOcc col).map (fun p =>
    { value := p.1, identity := p.2, selected := false, indeterminate := false,
      children := [], parentValue := none })

/-! ### The linking pass (`processData`, second pass, visual.ts:252-274) -/

/-- One parent/child link attempt for level pair `(i, i+1)`: look both
nodes up; if both exist and the parent's children do not yet contain the
child's key, append it and overwrite the child's `parentValue`; otherwise
(duplicate edge, or lookup miss — a skipped edge) leave the state alone. -/
def linkPairStep (h : Hierarchy) (i : Nat) (pStr cStr : String) : Hierarchy :=
  match findValue (getLevel h i) pStr, findValue (getLevel h (i + 1)) cStr with
  | some parent, some _child =>
      if parent.children.contains cStr then h
      else
        let h1 := updateLevel h i (updateFirst pStr
          (fun p => { p with children := p.children ++ [cStr] }))
        updateLevel h1 (i + 1) (updateFirst cStr
          (fun c => { c with parentValue := some pStr }))
  | _, _ => h

/-- The inner `for (levelIdx …)` loop of one row of the linking pass. -/
def linkRow (cols : List (List (Option String))) (r : Nat) (h : Hierarchy) : Hierarchy :=
  (List.range (cols.length - 1)).foldl
    (fun h' i => linkPairStep h' i (getCell (cols.getD i []) r) (getCell (cols.getD (i + 1) []) r)) h

/-- Source: the hierarchy branch of `processData`: per-level dedup first
(all levels), then the row scan linking adjacent levels; `rowCount` is the
length of the first level's column. -/
def buildHierarchy (cols : List (List (Option String))) : Hierarchy :=
  (List.range (cols.headD []).length).foldl
    (fun h r => linkRow cols r h) (cols.map buildLevelValues)

/-! ### Categories, selection emission, toggles and clears -/

/-- Mirror of the `FilterCategory` interface (standalone categories have no
`hierarchyLevels` in JS; that absence is modelled by `[]`). -/
structure FilterCategory where
  name : String
  displayName : String
  values : List FilterValue
  isHierarchy : Bool
  hierarchyLevels : Hierarchy
  order : Nat
  collapsed : Bool
deriving Repr, DecidableEq

/-- The call made on the selection manager at the end of each operation:
`select(selectedIds, false)` when the collected list is non-empty,
`clear()` otherwise. -/
inductive Emission where
  | select (ids : List Nat)
  | clearAll
deriving Repr, DecidableEq

/-- Collect `val.identity` over the selected entries of a flat `values` list. -/
def selectedIdsOfValues (vs : List FilterValue) : List Nat :=
  (vs.filter (fun v => v.selected)).map (fun v => v.identity)

/-- Collect identities over the selected nodes of all levels of a hierarchy. -/
def selectedIdsOfLevels (h : Hierarchy) : List Nat :=
  (h.flatMap (fun l => l.filter (fun v => v.selected))).map (fun v => v.identity)

/-- Wrap a collected identity list the way every operation does. -/
def emitOf (ids : List Nat) : Emission :=
  if ids.isEmpty then Emission.clearAll else Emission.select ids

/-- Source: `toggleHierarchyValue` (visual.ts:623-663), full operation on
the category list: run the state machine on category `ci`'s levels, then
collect the toggled hierarchy's selected identities (all levels) followed
by, for every OTHER category (by name), the selected identities of its
flat `values` list only — the source never scans `hierarchyLevels` of the
other categories here. -/
def toggleHierarchyValueOp (fuel : Nat) (cats : List FilterCategory) (ci li : Nat)
    (k : String) : List FilterCategory × Emission :=
  match cats.get? ci with
  | none => (cats, Emission.clearAll)
  | some cat =>
      let newLevels := toggleHierarchyValue fuel cat.hierarchyLevels li k
      let cats' := cats.set ci { cat with hierarchyLevels := newLevels }
      let ids := selectedIdsOfLevels newLevels ++
        cats'.flatMap (fun c => if c.name == cat.name then [] else selectedIdsOfValues c.values)
      (cats', emitOf ids)

/-- Source: `toggleSelection` (visual.ts:833-855): flip the clicked value
of category `ci` at position `vi`, then collect selected identities over
every category's flat `values` list (hierarchy levels are never scanned). -/
def toggleSelectionOp (cats : List FilterCategory) (ci vi : Nat) : List FilterCategory × Emission :=
  match cats.get? ci with
  | none => (cats, Emission.clearAll)
  | some cat =>
      let cats' := cats.set ci
        { cat with values := cat.values.modify (fun v => { v with selected := !v.selected }) vi }
      let ids := cats'.flatMap (fun c => selectedIdsOfValues c.values)
      (cats', emitOf ids)

/-- Source: `clearCategorySelection` (visual.ts:857-886): set
`selected = false` on each entry of the category's flat `values` list
(nothing else is touched), then collect selected identities over ALL
categories — flat values first, then hierarchy levels when present. -/
def clearCategorySelection (cats : List FilterCategory) (ci : Nat) : List FilterCategory × Emission :=
  match cats.get? ci with
  | none => (cats, Emission.clearAll)
  | some cat =>
      let cats' := cats.set ci
        { cat with values := cat.values.map (fun v => { v with selected := false }) }
      let ids := cats'.flatMap
        (fun c => selectedIdsOfValues c.values ++ selectedIdsOfLevels c.hierarchyLevels)
      (cats', emitOf ids)

/-- Source: `clearHierarchySelection` (visual.ts:888-922): set
`selected = false` on every node of every level of the category — the
source does NOT touch `indeterminate` — then collect selected identities
over every category whose name differs from the cleared one (flat values
first, then hierarchy levels). -/
def clearHierarchySelection (cats : List FilterCategory) (ci : Nat) : List FilterCategory × Emission :=
  match cats.get? ci with
  | none => (cats, Emission.clearAll)
  | some cat =>
      let cats' := cats.set ci
        { cat with hierarchyLevels :=
            cat.hierarchyLevels.map (fun l => l.map (fun v => { v with selected := false })) }
      let ids := cats'.flatMap (fun c =>
        if c.name == cat.name then []
        else selectedIdsOfValues c.values ++ selectedIdsOfLevels c.hierarchyLevels)
      (cats', emitOf ids)

/-! ### Field grouper (`processData`, visual.ts:174-211) -/

/-- The slice of `DataViewCategoryColumn.source` the grouper reads. -/
structure InputField where
  displayName : Option String
  queryName : Option String
deriving Repr, DecidableEq

/-- JS `s.split('.')[0]`: the characters before the first '.', the whole
string when it has none (written on the character list so that the kernel
can evaluate it). -/
def firstSegment (s : String) : String :=
  String.mk (s.toList.takeWhile (fun c => c ≠ '.'))

/-- JS `queryName.split('.')[0]`. -/
def baseNameOf (qn : String) : String :=
  firstSegment qn

/-- Grouper output: one entry of the `categoryOrder` array. -/
inductive COItem where
  | single (name : Option String) (index : Nat)
  | hier (name : String) (indices : List Nat)
deriving Repr, DecidableEq

/-- JS `cat.source.displayName?.split('.')[0] || baseName`: the first
dot-segment of the display name, with the base name as fallback when the
display name is absent or the segment is empty (falsy). -/
def hierGroupName (displayName : Option String) (baseName : String) : String :=
  match displayName with
  | none => baseName
  | some d => let seg := firstSegment d
              if seg = "" then baseName else seg

/-- JS `otherQueryName && otherQueryName.split('.')[0] === baseName`: does
the field share the lineage key (query-name base) `b`?  A field without a
query name never matches. -/
def sameBaseB (b : String) (g : Nat × InputField) : Bool :=
  match g.2.queryName with
  | some q => baseNameOf q == b
  | none => false

/-- One iteration of the grouper's `categories.forEach` (visual.ts:179-211),
threading the emitted `categoryOrder` list and the `processedIndices` set. -/
def groupStep (fields : List (Nat × InputField)) (acc : List COItem × List Nat)
    (idxf : Nat × InputField) : List COItem × List Nat :=
  if acc.2.contains idxf.1 then acc
  else
    match idxf.2.queryName with
    | none => (acc.1 ++ [COItem.single idxf.2.displayName idxf.1], acc.2 ++ [idxf.1])
    | some qn =>
        let baseName := baseNameOf qn
        let related := fields.filter (sameBaseB baseName)
        let processed := acc.2 ++ related.map (fun g => g.1)
        if related.length > 1 then
          (acc.1 ++ [COItem.hier (hierGroupName idxf.2.displayName baseName) (related.map (fun g => g.1))],
           processed)
        else
          (acc.1 ++ [COItem.single idxf.2.displayName idxf.1], processed)

/-- Source: the grouping strategy of `processData` (visual.ts:174-211). -/
def buildCategoryOrder (fields : List InputField) : List COItem :=
  (fields.enum.foldl (groupStep fields.enum) ([], [])).1

/-! ### Structural-shape machinery

The selection state machine rewrites only the `selected` / `indeterminate`
flags; `value`, `identity`, `children` and `parentValue` — everything the
lookups (`findValue`, `findParentIdx`, `parentChain`) read apart from the
flags — are preserved.  `nodeShape` projects that preserved part. -/

def nodeShape (v : FilterValue) : String × Nat × List String × Option String :=
  (v.value, v.identity, v.children, v.parentValue)

def hierShape (h : Hierarchy) : List (List (String × Nat × List String × Option String)) :=
  h.map (List.map nodeShape)

lemma nodeShape_value {v w : FilterValue} (h : nodeShape v = nodeShape w) : v.value = w.value := by
  simpa [nodeShape] using congrArg (fun p => p.1) h

lemma nodeShape_children {v w : FilterValue} (h : nodeShape v = nodeShape w) :
    v.children = w.children := by
  simpa [nodeShape] using congrArg (fun p => p.2.2.1) h

lemma nodeShape_parentValue {v w : FilterValue} (h : nodeShape v = nodeShape w) :
    v.parentValue = w.parentValue := by
  simpa [nodeShape] using congrArg (fun p => p.2.2.2) h

lemma map_nodeShape_updateFirst (k : String) (f : FilterValue → FilterValue)
    (hf : ∀ v, nodeShape (f v) = nodeShape v) (l : HierLevel) :
    (updateFirst k f l).map nodeShape = l.map nodeShape := by
  induction l with
  | nil => rfl
  | cons v vs ih =>
      by_cases hv : v.value == k
      · simp [updateFirst, hv, hf]
      · simp [updateFirst, hv, ih]

lemma getLevel_map (h : Hierarchy) (i : Nat) :
    (getLevel h i).map nodeShape = (hierShape h).getD i [] := by
  simp only [getLevel, hierShape, List.getD_eq_getElem?_getD]
  cases hx : h[i]? with
  | none =>
      have : (h.map (List.map nodeShape))[i]? = none := by
        simp [List.getElem?_map, hx]
      simp [this, hx]
  | some l =>
      have : (h.map (List.map nodeShape))[i]? = some (l.map nodeShape) := by
        simp [List.getElem?_map, hx]
      simp [this, hx]

lemma hierShape_updateLevel (h : Hierarchy) (i : Nat) (f : HierLevel → HierLevel)
    (hf : (f (getLevel h i)).map nodeShape = (getLevel h i).map nodeShape) :
    hierShape (updateLevel h i f) = hierShape h := by
  apply List.ext_getElem?
  intro n
  simp only [hierShape, updateLevel, List.getElem?_map, List.getElem?_set]
  by_cases hni : i = n
  · subst hni
    by_cases hlen : i < h.length
    · simp only [hlen, if_true, if_pos rfl]
      have hg : h[i]? = some (h.getD i []) := by
        simp [List.getD_eq_getElem?_getD]
        cases hx : h[i]? with
        | none => exact absurd (List.getElem?_eq_none_iff.mp hx) (by omega)
        | some l => simp
      rw [hg]
      simpa [getLevel] using hf
    · simp [hlen, List.getElem?_eq_none_iff.mpr (by omega : h.length ≤ i)]
  · simp [hni]

lemma findValue_shape {l l' : HierLevel} (h : l.map nodeShape = l'.map nodeShape) (k : String) :
    Option.map nodeShape (findValue l k) = Option.map nodeShape (findValue l' k) := by
  induction l generalizing l' with
  | nil => cases l' with
    | nil => rfl
    | cons w ws => simp at h
  | cons v vs ih =>
      cases l' with
      | nil => simp at h
      | cons w ws =>
          simp only [List.map_cons, List.cons.injEq] at h
          have hval : v.value = w.value := nodeShape_value h.1
          by_cases hv : v.value == k
          · have hw : w.value == k := by rw [← hval]; exact hv
            simp [findValue, List.find?, hv, hw, h.1]
          · have hw : ¬ (w.value == k) := by rw [← hval]; exact hv
            simpa [findValue, List.find?, hv, hw] using ih h.2

lemma findParentIdxAux_shape {ls ls' : List HierLevel}
    (h : ls.map (List.map nodeShape) = ls'.map (List.map nodeShape)) (k : String) (i : Nat) :
    findParentIdxAux k ls i = findParentIdxAux k ls' i := by
  induction ls generalizing ls' i with
  | nil => cases ls' with
    | nil => rfl
    | cons w ws => simp at h
  | cons l rest ih =>
      cases ls' with
      | nil => simp at h
      | cons l' rest' =>
          simp only [List.map_cons, List.cons.injEq] at h
          have hfv := findValue_shape h.1 k
          cases hx : findValue l k with
          | none =>
              cases hx' : findValue l' k with
              | none => simpa [findParentIdxAux, hx, hx'] using ih h.2 (i + 1)
              | some w => rw [hx, hx'] at hfv; simp at hfv
          | some p =>
              cases hx' : findValue l' k with
              | none => rw [hx, hx'] at hfv; simp at hfv
              | some p' =>
                  rw [hx, hx'] at hfv
                  simp only [Option.map_some'] at hfv
                  have hch : p.children = p'.children :=
                    nodeShape_children (Option.some.inj hfv)
                  by_cases hemp : p.children.isEmpty
                  · have hemp' : p'.children.isEmpty := by rw [← hch]; exact hemp
                    simpa [findParentIdxAux, hx, hx', hemp, hemp'] using ih h.2 (i + 1)
                  · have hemp' : ¬ p'.children.isEmpty := by rw [← hch]; exact hemp
                    simp [findParentIdxAux, hx, hx', hemp, hemp']

lemma findParentIdx_shape {h h' : Hierarchy} (hs : hierShape h = hierShape h') (k : String) :
    findParentIdx h k = findParentIdx h' k :=
  findParentIdxAux_shape hs k 0

lemma findValue_getLevel_shape {h h' : Hierarchy} (hs : hierShape h = hierShape h')
    (i : Nat) (k : String) :
    Option.map nodeShape (findValue (getLevel h i) k) =
      Option.map nodeShape (findValue (getLevel h' i) k) := by
  apply findValue_shape
  rw [getLevel_map, getLevel_map, hs]

lemma parentChain_shape {h h' : Hierarchy} (hs : hierShape h = hierShape h')
    (fuel : Nat) (k : String) :
    parentChain fuel h k = parentChain fuel h' k := by
  induction fuel generalizing k with
  | zero => rfl
  | succ fuel ih =>
      have hidx := findParentIdx_shape hs k
      cases hx : findParentIdx h k with
      | none => simp [parentChain, hx, hidx ▸ hx, ← hidx]
      | some i =>
          have hfv := findValue_getLevel_shape hs i k
          cases hy : findValue (getLevel h i) k with
          | none =>
              cases hy' : findValue (getLevel h' i) k with
              | none => simp [parentChain, hx, ← hidx, hy, hy']
              | some w => rw [hy, hy'] at hfv; simp at hfv
          | some p =>
              cases hy' : findValue (getLevel h' i) k with
              | none => rw [hy, hy'] at hfv; simp at hfv
              | some p' =>
                  rw [hy, hy'] at hfv
                  simp only [Option.map_some'] at hfv
                  have hpv : p.parentValue = p'.parentValue :=
                    nodeShape_parentValue (Option.some.inj hfv)
                  cases hp : p.parentValue with
                  | none => simp [parentChain, hx, ← hidx, hy, hy', hp, ← hpv]
                  | some pk => simp [parentChain, hx, ← hidx, hy, hy', hp, ← hpv, ih pk]
lemma nodeShape_recomputeFlags (cs : List FilterValue) (p : FilterValue) :
    nodeShape (recomputeFlags cs p) = nodeShape p := by
  unfold recomputeFlags
  dsimp only
  split
  · rfl
  · split
    · rfl
    · rfl

lemma hierShape_recomputeStepAt (h : Hierarchy) (i : Nat) (k : String) :
    hierShape (recomputeStepAt h i k) = hierShape h := by
  unfold recomputeStepAt
  cases hx : findValue (getLevel h i) k with
  | none => rfl
  | some p =>
      exact hierShape_updateLevel h i _
        (map_nodeShape_updateFirst k _ (nodeShape_recomputeFlags _) (getLevel h i))

lemma recomputeStepAt_of_found {h : Hierarchy} {i : Nat} {k : String} {p : FilterValue}
    (hx : findValue (getLevel h i) k = some p) :
    recomputeStepAt h i k =
      updateLevel h i (updateFirst k (recomputeFlags (resolveChildren h (i + 1) p.children))) := by
  unfold recomputeStepAt
  rw [hx]

/-- The upward recomputation as a fold of single recompute steps over the
statically computed parent chain. -/
def chainFold (g : Hierarchy) (c : List (Nat × String)) : Hierarchy :=
  c.foldl (fun s x => recomputeStepAt s x.1 x.2) g

lemma chainFold_cons (g : Hierarchy) (x : Nat × String) (c : List (Nat × String)) :
    chainFold g (x :: c) = chainFold (recomputeStepAt g x.1 x.2) c := rfl

lemma updateParent_eq_chainFold (fuel : Nat) (h : Hierarchy) (k : String) :
    updateParentSelectionRecursive fuel h k = chainFold h (parentChain fuel h k) := by
  induction fuel generalizing h k with
  | zero => rfl
  | succ fuel ih =>
      cases hx : findParentIdx h k with
      | none => simp [updateParentSelectionRecursive, parentChain, hx, chainFold]
      | some i =>
          cases hy : findValue (getLevel h i) k with
          | none => simp [updateParentSelectionRecursive, parentChain, hx, hy, chainFold]
          | some p =>
              cases hp : p.parentValue with
              | none =>
                  simp only [updateParentSelectionRecursive, parentChain, hx, hy, hp]
                  rw [chainFold_cons, recomputeStepAt_of_found hy]
                  rfl
              | some pk =>
                  simp only [updateParentSelectionRecursive, parentChain, hx, hy, hp]
                  rw [ih, chainFold_cons, recomputeStepAt_of_found hy]
                  congr 1
                  apply parentChain_shape
                  rw [← recomputeStepAt_of_found hy]
                  exact hierShape_recomputeStepAt h i k

lemma hierShape_chainFold (g : Hierarchy) (c : List (Nat × String)) :
    hierShape (chainFold g c) = hierShape g := by
  induction c generalizing g with
  | nil => rfl
  | cons x rest ih => rw [chainFold_cons, ih, hierShape_recomputeStepAt]

lemma hierShape_updateParent (fuel : Nat) (h : Hierarchy) (k : String) :
    hierShape (updateParentSelectionRecursive fuel h k) = hierShape h := by
  rw [updateParent_eq_chainFold, hierShape_chainFold]

lemma getLevel_updateLevel_ne (h : Hierarchy) (i j : Nat) (f : HierLevel → HierLevel)
    (hij : i ≠ j) : getLevel (updateLevel h i f) j = getLevel h j := by
  simp [getLevel, updateLevel, List.getD_eq_getElem?_getD, List.getElem?_set_ne hij]

lemma getLevel_updateLevel_self (h : Hierarchy) (i : Nat) (f : HierLevel → HierLevel)
    (hlen : i < h.length) : getLevel (updateLevel h i f) i = f (getLevel h i) := by
  simp [getLevel, updateLevel, List.getD_eq_getElem?_getD, List.getElem?_set_self hlen]

lemma getLevel_recomputeStepAt_ne (h : Hierarchy) (i j : Nat) (k : String) (hij : i ≠ j) :
    getLevel (recomputeStepAt h i k) j = getLevel h j := by
  unfold recomputeStepAt
  cases hx : findValue (getLevel h i) k with
  | none => rfl
  | some p => exact getLevel_updateLevel_ne h i j _ hij

lemma getLevel_chainFold_ne (g : Hierarchy) (c : List (Nat × String)) (j : Nat)
    (hc : ∀ x ∈ c, x.1 ≠ j) : getLevel (chainFold g c) j = getLevel g j := by
  induction c generalizing g with
  | nil => rfl
  | cons x rest ih =>
      rw [chainFold_cons, ih _ (fun y hy => hc y (List.mem_cons_of_mem x hy)),
        getLevel_recomputeStepAt_ne g x.1 j x.2 (hc x (List.mem_cons_self x rest))]

lemma findValue_updateFirst_self (k : String) (f : FilterValue → FilterValue)
    (hf : ∀ v, (f v).value = v.value) (l : HierLevel) :
    findValue (updateFirst k f l) k = (findValue l k).map f := by
  induction l with
  | nil => rfl
  | cons v vs ih =>
      by_cases hv : v.value == k
      · have hfv : (f v).value == k := by rw [hf v]; exact hv
        simp [updateFirst, findValue, List.find?, hv, hfv]
      · have : findValue (v :: updateFirst k f vs) k = findValue (updateFirst k f vs) k := by
          simp [findValue, List.find?, hv]
        simp only [updateFirst, if_neg hv, this, ih]
        simp [findValue, List.find?, hv]

lemma length_updateLevel (h : Hierarchy) (i : Nat) (f : HierLevel → HierLevel) :
    (updateLevel h i f).length = h.length := by
  simp [updateLevel]

lemma length_recomputeStepAt (h : Hierarchy) (i : Nat) (k : String) :
    (recomputeStepAt h i k).length = h.length := by
  unfold recomputeStepAt
  cases findValue (getLevel h i) k with
  | none => rfl
  | some p => exact length_updateLevel h i _

lemma findValue_none_of_ge_length {h : Hierarchy} {i : Nat} (hge : h.length ≤ i) (k : String) :
    findValue (getLevel h i) k = none := by
  have : getLevel h i = [] := by
    simp [getLevel, List.getD_eq_getElem?_getD, List.getElem?_eq_none_iff.mpr hge]
  rw [this]; rfl

lemma value_recomputeFlags (cs : List FilterValue) (p : FilterValue) :
    (recomputeFlags cs p).value = p.value :=
  nodeShape_value (nodeShape_recomputeFlags cs p)

lemma children_recomputeFlags (cs : List FilterValue) (p : FilterValue) :
    (recomputeFlags cs p).children = p.children :=
  nodeShape_children (nodeShape_recomputeFlags cs p)

lemma findValue_lt_length {h : Hierarchy} {i : Nat} {k : String} {p : FilterValue}
    (hx : findValue (getLevel h i) k = some p) : i < h.length := by
  by_contra hge
  rw [findValue_none_of_ge_length (by omega) k] at hx
  exact Option.noConfusion hx

lemma recomputeFlags_eq_of_shape {cs : List FilterValue} {p q : FilterValue}
    (hs : nodeShape p = nodeShape q) : recomputeFlags cs p = recomputeFlags cs q := by
  have h1 : p.value = q.value := nodeShape_value hs
  have h2 : p.identity = q.identity := by
    simpa [nodeShape] using congrArg (fun x => x.2.1) hs
  have h3 : p.children = q.children := nodeShape_children hs
  have h4 : p.parentValue = q.parentValue := nodeShape_parentValue hs
  unfold recomputeFlags
  dsimp only
  split
  · simp [h1, h2, h3, h4]
  · split
    · simp [h1, h2, h3, h4]
    · simp [h1, h2, h3, h4]

lemma resolveChildren_congr {h h' : Hierarchy} {i : Nat}
    (hl : getLevel h' i = getLevel h i) (ks : List String) :
    resolveChildren h' i ks = resolveChildren h i ks := by
  unfold resolveChildren
  rw [hl]

/-- After folding the recompute steps along a level-wise strictly
decreasing chain, every chain node's flags agree with the tri-state rule
applied to its children as they stand in the final state. -/
lemma chainFold_consistent (c : List (Nat × String)) (g : Hierarchy)
    (hdec : List.Pairwise (fun a b => b.1 < a.1) c) :
    ∀ x ∈ c, ∀ p, findValue (getLevel g x.1) x.2 = some p →
      findValue (getLevel (chainFold g c) x.1) x.2 =
        some (recomputeFlags (resolveChildren (chainFold g c) (x.1 + 1) p.children) p) := by
  induction c generalizing g with
  | nil => intro x hx; exact absurd hx (List.not_mem_nil x)
  | cons x0 rest ih =>
      have hx0rest : ∀ y ∈ rest, y.1 < x0.1 := (List.pairwise_cons.mp hdec).1
      have hrest : List.Pairwise (fun a b => b.1 < a.1) rest := (List.pairwise_cons.mp hdec).2
      intro x hx p hp
      rcases List.mem_cons.mp hx with hhead | htail
      · subst hhead
        have hlen : x.1 < g.length := findValue_lt_length hp
        have hstep : recomputeStepAt g x.1 x.2 =
            updateLevel g x.1 (updateFirst x.2
              (recomputeFlags (resolveChildren g (x.1 + 1) p.children))) :=
          recomputeStepAt_of_found hp
        have hg' : getLevel (recomputeStepAt g x.1 x.2) x.1 =
            updateFirst x.2 (recomputeFlags (resolveChildren g (x.1 + 1) p.children))
              (getLevel g x.1) := by
          rw [hstep]; exact getLevel_updateLevel_self g x.1 _ hlen
        have hfinal_level : getLevel (chainFold g (x :: rest)) x.1 =
            getLevel (recomputeStepAt g x.1 x.2) x.1 := by
          rw [chainFold_cons]
          exact getLevel_chainFold_ne _ rest x.1 (fun y hy => by
            have := hx0rest y hy; omega)
        have hchild_level : getLevel (chainFold g (x :: rest)) (x.1 + 1) =
            getLevel g (x.1 + 1) := by
          rw [chainFold_cons]
          have h1 : getLevel (chainFold (recomputeStepAt g x.1 x.2) rest) (x.1 + 1) =
              getLevel (recomputeStepAt g x.1 x.2) (x.1 + 1) :=
            getLevel_chainFold_ne _ rest (x.1 + 1) (fun y hy => by
              have := hx0rest y hy; omega)
          rw [h1]
          exact getLevel_recomputeStepAt_ne g x.1 (x.1 + 1) x.2 (by omega)
        rw [hfinal_level, hg',
          findValue_updateFirst_self x.2 _ (fun v => value_recomputeFlags _ v) _, hp,
          resolveChildren_congr hchild_level]
        rfl
      · have hlvl_ne : x0.1 ≠ x.1 := by
          have := hx0rest x htail; omega
        have hp' : findValue (getLevel (recomputeStepAt g x0.1 x0.2) x.1) x.2 = some p := by
          rw [getLevel_recomputeStepAt_ne g x0.1 x.1 x0.2 hlvl_ne]; exact hp
        rw [chainFold_cons]
        exact ih (recomputeStepAt g x0.1 x0.2) hrest x htail p hp'
lemma parentChain_found (fuel : Nat) (h : Hierarchy) (k : String) :
    ∀ x ∈ parentChain fuel h k, ∃ p, findValue (getLevel h x.1) x.2 = some p := by
  induction fuel generalizing k with
  | zero => intro x hx; simp [parentChain] at hx
  | succ fuel ih =>
      intro x hx
      rw [parentChain] at hx
      cases hi : findParentIdx h k with
      | none => simp [hi] at hx
      | some i =>
          simp only [hi] at hx
          cases hy : findValue (getLevel h i) k with
          | none => simp [hy] at hx
          | some p =>
              simp only [hy] at hx
              rcases List.mem_cons.mp hx with hhead | htail
              · subst hhead; exact ⟨p, hy⟩
              · cases hp : p.parentValue with
                | none => simp [hp] at htail
                | some pk =>
                    simp only [hp] at htail
                    exact ih pk x htail

/-- The tri-state relation the spec states between a parent's flags and
its immediate children, phrased with the source's else-if structure: for a
parent with at least one child, "no child selected or indeterminate"
entails "not all children selected", so the second clause is exactly the
spec's middle rule. -/
def triStateOk (cs : List FilterValue) (p : FilterValue) : Prop :=
  (cs.all (fun c => c.selected) = true → p.selected = true ∧ p.indeterminate = false) ∧
  (cs.all (fun c => c.selected) = false →
    cs.any (fun c => c.selected || c.indeterminate) = false →
    p.selected = false ∧ p.indeterminate = false) ∧
  (cs.all (fun c => c.selected) = false →
    cs.any (fun c => c.selected || c.indeterminate) = true →
    p.selected = false ∧ p.indeterminate = true)

lemma triStateOk_recomputeFlags (cs : List FilterValue) (p : FilterValue) :
    triStateOk cs (recomputeFlags cs p) := by
  unfold triStateOk recomputeFlags
  dsimp only
  by_cases hall : cs.all (fun c => c.selected) = true
  · simp [hall]
  · by_cases hany : cs.any (fun c => c.selected || c.indeterminate) = true
    · simp [hall, hany]
    · simp [hall, hany]

lemma toggle_of_found {fuel : Nat} {h : Hierarchy} {li : Nat} {k : String} {fv : FilterValue}
    (hfv : findValue (getLevel h li) k = some fv) :
    toggleHierarchyValue fuel h li k =
      match fv.parentValue with
      | some pk => updateParentSelectionRecursive fuel (toggleMidState h li k) pk
      | none => toggleMidState h li k := by
  unfold toggleHierarchyValue
  rw [hfv]

/-- Claim C2: after `toggle(node, group)`, every ancestor reached through
the parent-key chain is recomputed from its immediate children: all
children selected gives selected and not indeterminate, no child selected
or indeterminate gives unselected and not indeterminate, otherwise
unselected and indeterminate.  The chain is the sequence of nodes the
source's `updateParentSelectionRecursive` visits; the hypothesis that its
level indices strictly decrease holds for every tree built by
`processData` (each `parentValue` points one level up). -/
theorem toggle_ancestor_tristate (fuel : Nat) (h : Hierarchy) (li : Nat) (k : String)
    (fv : FilterValue) (pk : String)
    (hfv : findValue (getLevel h li) k = some fv)
    (hpk : fv.parentValue = some pk)
    (hdec : List.Pairwise (fun a b => b.1 < a.1)
      (parentChain fuel (toggleMidState h li k) pk)) :
    ∀ x ∈ parentChain fuel (toggleMidState h li k) pk,
      ∃ p, findValue (getLevel (toggleHierarchyValue fuel h li k) x.1) x.2 = some p ∧
        triStateOk (resolveChildren (toggleHierarchyValue fuel h li k) (x.1 + 1) p.children) p := by
  intro x hx
  have htog : toggleHierarchyValue fuel h li k =
      updateParentSelectionRecursive fuel (toggleMidState h li k) pk := by
    rw [toggle_of_found hfv, hpk]
  rw [htog, updateParent_eq_chainFold]
  obtain ⟨q, hq⟩ := parentChain_found fuel (toggleMidState h li k) pk x hx
  have hcons := chainFold_consistent _ _ hdec x hx q hq
  refine ⟨_, hcons, ?_⟩
  rw [children_recomputeFlags]
  exact triStateOk_recomputeFlags _ q

/-- A two-level tree (the spec's scenario A data): Fruit → {Apple, Banana},
Veg → {Carrot}, all unselected. -/
def egTree : Hierarchy :=
  [[{ value := "Fruit", identity := 0, selected := false, indeterminate := false,
      children := ["Apple", "Banana"], parentValue := none },
    { value := "Veg", identity := 2, selected := false, indeterminate := false,
      children := ["Carrot"], parentValue := none }],
   [{ value := "Apple", identity := 0, selected := false, indeterminate := false,
      children := [], parentValue := some "Fruit" },
    { value := "Banana", identity := 1, selected := false, indeterminate := false,
      children := [], parentValue := some "Fruit" },
    { value := "Carrot", identity := 2, selected := false, indeterminate := false,
      children := [], parentValue := some "Veg" }]]

/-- Witness for C2: toggling Apple in the concrete two-level tree leaves
its ancestor Fruit in a state satisfying the tri-state rule. -/
theorem toggle_ancestor_tristate_witness :
    ∃ p, findValue (getLevel (toggleHierarchyValue 5 egTree 1 "Apple") 0) "Fruit" = some p ∧
      triStateOk (resolveChildren (toggleHierarchyValue 5 egTree 1 "Apple") 1 p.children) p := by
  have happ := toggle_ancestor_tristate 5 egTree 1 "Apple"
    { value := "Apple", identity := 0, selected := false, indeterminate := false,
      children := [], parentValue := some "Fruit" } "Fruit"
    (by decide) (by decide) (by decide) (0, "Fruit") (by decide)
  exact happ

/-- Claim C10: when the parent key being recomputed has no matching node
(no level contains a node with that key and non-empty children), the
upward recomputation returns the state unchanged; and when the failure
occurs one step up the chain, the whole operation equals just the single
recompute step already performed — higher ancestors keep their prior
flags and no error is raised (the function is total). -/
theorem updateParent_missing_parent_stops :
    (∀ fuel h k, findParentIdx h k = none →
      updateParentSelectionRecursive fuel h k = h) ∧
    (∀ fuel h i k p pk, findParentIdx h k = some i →
      findValue (getLevel h i) k = some p → p.parentValue = some pk →
      findParentIdx h pk = none →
      updateParentSelectionRecursive (fuel + 2) h k = recomputeStepAt h i k) := by
  constructor
  · intro fuel h k hnone
    cases fuel with
    | zero => rfl
    | succ fuel => simp [updateParentSelectionRecursive, hnone]
  · intro fuel h i k p pk hi hp hpk hnone
    have hstep := recomputeStepAt_of_found hp
    simp only [updateParentSelectionRecursive, hi, hp, hpk]
    have hsh : hierShape (updateLevel h i (updateFirst k
        (recomputeFlags (resolveChildren h (i + 1) p.children)))) = hierShape h := by
      rw [← hstep]; exact hierShape_recomputeStepAt h i k
    have hnone' : findParentIdx (updateLevel h i (updateFirst k
        (recomputeFlags (resolveChildren h (i + 1) p.children)))) pk = none := by
      rw [findParentIdx_shape hsh]; exact hnone
    simp only [updateParentSelectionRecursive, hnone']
    rw [hstep]

/-- A tree with a stale parent reference: Mid has a child Leaf but its own
`parentValue` names the non-existent key Ghost. -/
def egStale : Hierarchy :=
  [[{ value := "Mid", identity := 0, selected := false, indeterminate := true,
      children := ["Leaf"], parentValue := some "Ghost" }],
   [{ value := "Leaf", identity := 0, selected := true, indeterminate := false,
      children := [], parentValue := some "Mid" }]]

/-- Witness for C10: recomputation from an absent key leaves the stale
tree unchanged, and recomputation from Mid stops after the single Mid
step because Ghost resolves to no node. -/
theorem updateParent_missing_parent_stops_witness :
    updateParentSelectionRecursive 3 egStale "Zed" = egStale ∧
    updateParentSelectionRecursive 3 egStale "Mid" = recomputeStepAt egStale 0 "Mid" :=
  ⟨updateParent_missing_parent_stops.1 3 egStale "Zed" (by decide),
   updateParent_missing_parent_stops.2 1 egStale 0 "Mid"
     { value := "Mid", identity := 0, selected := false, indeterminate := true,
       children := ["Leaf"], parentValue := some "Ghost" } "Ghost"
     (by decide) (by decide) (by decide) (by decide)⟩

lemma getLevel_take_append (h1 rest : Hierarchy) (n j : Nat) (hj : j < n)
    (hlen : n ≤ h1.length) :
    getLevel (List.take n h1 ++ rest) j = getLevel h1 j := by
  have hjl : j < (List.take n h1).length := by
    rw [List.length_take]; omega
  simp only [getLevel, List.getD_eq_getElem?_getD, List.getElem?_append, hjl, if_pos]
  rw [List.getElem?_take]
  simp [hj]

lemma toggleMidState_of_found {h : Hierarchy} {li : Nat} {k : String} {fv : FilterValue}
    (hfv : findValue (getLevel h li) k = some fv) :
    toggleMidState h li k =
      List.take (li + 1) (updateLevel h li (updateFirst k
        (fun v => { v with selected := !fv.selected }))) ++
      cascadeSelectionToDescendants fv.children (!fv.selected)
        (List.drop (li + 1) (updateLevel h li (updateFirst k
          (fun v => { v with selected := !fv.selected })))) := by
  unfold toggleMidState
  rw [hfv]

lemma findValue_toggleMidState_self {h : Hierarchy} {li : Nat} {k : String} {fv : FilterValue}
    (hfv : findValue (getLevel h li) k = some fv) :
    findValue (getLevel (toggleMidState h li k) li) k =
      some { fv with selected := !fv.selected } := by
  have hlen : li < h.length := findValue_lt_length hfv
  rw [toggleMidState_of_found hfv,
    getLevel_take_append _ _ (li + 1) li (by omega) (by rw [length_updateLevel]; omega),
    getLevel_updateLevel_self _ _ _ hlen,
    findValue_updateFirst_self k (fun v => { v with selected := !fv.selected })
      (fun v => rfl) (getLevel h li), hfv]
  rfl

/-- Claim C1 (amended): `toggle(node, group)` flips `node.selected` on the
toggled node itself but leaves its `indeterminate` flag — and every other
field — unchanged: the source's `toggleHierarchyValue` never writes
`filterValue.indeterminate`.  The chain hypothesis (every ancestor the
upward recomputation visits lies on a level strictly above the toggled
node) holds for every tree built by `processData`. -/
theorem toggle_flips_selected_only (fuel : Nat) (h : Hierarchy) (li : Nat) (k : String)
    (fv : FilterValue)
    (hfv : findValue (getLevel h li) k = some fv)
    (hchain : ∀ pk, fv.parentValue = some pk →
      ∀ x ∈ parentChain fuel (toggleMidState h li k) pk, x.1 < li) :
    findValue (getLevel (toggleHierarchyValue fuel h li k) li) k =
      some { fv with selected := !fv.selected } := by
  cases hpv : fv.parentValue with
  | none =>
      have htog : toggleHierarchyValue fuel h li k = toggleMidState h li k := by
        rw [toggle_of_found hfv, hpv]
      rw [htog, findValue_toggleMidState_self hfv, hpv]
  | some pk =>
      have htog : toggleHierarchyValue fuel h li k =
          updateParentSelectionRecursive fuel (toggleMidState h li k) pk := by
        rw [toggle_of_found hfv, hpv]
      rw [htog, updateParent_eq_chainFold,
        getLevel_chainFold_ne _ _ li (fun x hx => by
          have := hchain pk hpv x hx; omega),
        findValue_toggleMidState_self hfv, hpv]

/-- The two-level tree in the state reached by first toggling Apple:
Fruit is indeterminate, Apple selected. -/
def egIndetTree : Hierarchy :=
  [[{ value := "Fruit", identity := 0, selected := false, indeterminate := true,
      children := ["Apple", "Banana"], parentValue := none },
    { value := "Veg", identity := 2, selected := false, indeterminate := false,
      children := ["Carrot"], parentValue := none }],
   [{ value := "Apple", identity := 0, selected := true, indeterminate := false,
      children := [], parentValue := some "Fruit" },
    { value := "Banana", identity := 1, selected := false, indeterminate := false,
      children := [], parentValue := some "Fruit" },
    { value := "Carrot", identity := 2, selected := false, indeterminate := false,
      children := [], parentValue := some "Veg" }]]

/-- Counterexample to claim C1 as stated: toggling the indeterminate node
Fruit yields `selected = true` with `indeterminate` still `true` — the
toggle does not clear `indeterminate` on the toggled node, so the
"selected implies not indeterminate" invariant is violated right after the
toggle. -/
theorem toggle_keeps_indeterminate_cex :
    findValue (getLevel (toggleHierarchyValue 5 egIndetTree 0 "Fruit") 0) "Fruit" =
      some { value := "Fruit", identity := 0, selected := true, indeterminate := true,
             children := ["Apple", "Banana"], parentValue := none } := by
  decide

/-- Witness for the amended C1: toggling Apple (whose parent chain is the
single node Fruit at level 0 < 1) flips only its `selected` flag. -/
theorem toggle_flips_selected_only_witness :
    findValue (getLevel (toggleHierarchyValue 5 egIndetTree 1 "Apple") 1) "Apple" =
      some { value := "Apple", identity := 0, selected := false, indeterminate := false,
             children := [], parentValue := some "Fruit" } := by
  have happ := toggle_flips_selected_only 5 egIndetTree 1 "Apple"
    { value := "Apple", identity := 0, selected := true, indeterminate := false,
      children := [], parentValue := some "Fruit" }
    (by decide) (fun pk hpk => by cases hpk; decide)
  exact happ

/-- The set of keys the cascade reaches at depth `d` below the toggled
node: the strict descendants of the node, traced level by level through
the `children` links (exactly the nodes the source's depth-first
`cascadeSelectionToDescendants` recursion visits). -/
def cascadeFrontier (ks : List String) : List HierLevel → Nat → List String
  | _, 0 => ks
  | [], _ + 1 => []
  | l :: ls, d + 1 =>
      cascadeFrontier ((l.filter (fun v => ks.contains v.value)).flatMap (fun v => v.children)) ls d

lemma cascade_getD (ls : List HierLevel) (ks : List String) (sel : Bool) (d : Nat) :
    (cascadeSelectionToDescendants ks sel ls).getD d [] =
      (ls.getD d []).map (fun v => if (cascadeFrontier ks ls d).contains v.value then
        { v with selected := sel, indeterminate := false } else v) := by
  induction ls generalizing ks d with
  | nil => cases d <;> rfl
  | cons l ls ih =>
      cases d with
      | zero => rfl
      | succ d =>
          show (cascadeSelectionToDescendants _ sel ls).getD d [] = _
          rw [ih]
          rfl

lemma drop_updateLevel (h : Hierarchy) (li : Nat) (f : HierLevel → HierLevel) :
    List.drop (li + 1) (updateLevel h li f) = List.drop (li + 1) h := by
  apply List.ext_getElem?
  intro n
  rw [List.getElem?_drop, List.getElem?_drop]
  exact List.getElem?_set_ne (by omega)

lemma getLevel_toggleMidState_below {h : Hierarchy} {li : Nat} {k : String} {fv : FilterValue}
    (hfv : findValue (getLevel h li) k = some fv) (d : Nat) :
    getLevel (toggleMidState h li k) (li + 1 + d) =
      (cascadeSelectionToDescendants fv.children (!fv.selected) (List.drop (li + 1) h)).getD d [] := by
  have hlen : li < h.length := findValue_lt_length hfv
  rw [toggleMidState_of_found hfv, drop_updateLevel]
  have hlt : (List.take (li + 1) (updateLevel h li (updateFirst k
      (fun v => { v with selected := !fv.selected })))).length = li + 1 := by
    rw [List.length_take, length_updateLevel]; omega
  simp only [getLevel, List.getD_eq_getElem?_getD, List.getElem?_append, hlt]
  have hge : ¬ (li + 1 + d < li + 1) := by omega
  rw [if_neg hge]
  have : li + 1 + d - (li + 1) = d := by omega
  rw [this]

/-- Claim C3: after `toggle(node, group)`, every strict descendant of the
toggled node (every node whose key the cascade frontier reaches at its
level) has `selected` equal to the node's new selected value and
`indeterminate = false`; with `fv.selected = false` this specialises to
"after toggling a node to selected, every descendant is selected and not
indeterminate".  The chain hypothesis holds for `processData`-built trees,
where the upward recomputation only visits levels above the toggled node. -/
theorem toggle_cascade_descendants (fuel : Nat) (h : Hierarchy) (li : Nat) (k : String)
    (fv : FilterValue)
    (hfv : findValue (getLevel h li) k = some fv)
    (hchain : ∀ pk, fv.parentValue = some pk →
      ∀ x ∈ parentChain fuel (toggleMidState h li k) pk, x.1 < li) (d : Nat) :
    ∀ v ∈ getLevel (toggleHierarchyValue fuel h li k) (li + 1 + d),
      (cascadeFrontier fv.children (List.drop (li + 1) h) d).contains v.value = true →
      v.selected = !fv.selected ∧ v.indeterminate = false := by
  have hbelow : getLevel (toggleHierarchyValue fuel h li k) (li + 1 + d) =
      getLevel (toggleMidState h li k) (li + 1 + d) := by
    cases hpv : fv.parentValue with
    | none => rw [toggle_of_found hfv, hpv]
    | some pk =>
        have htog : toggleHierarchyValue fuel h li k =
            updateParentSelectionRecursive fuel (toggleMidState h li k) pk := by
          rw [toggle_of_found hfv, hpv]
        rw [htog, updateParent_eq_chainFold,
          getLevel_chainFold_ne _ _ (li + 1 + d) (fun x hx => by
            have := hchain pk hpv x hx; omega)]
  rw [hbelow, getLevel_toggleMidState_below hfv d, cascade_getD]
  intro v hv hmem
  rcases List.mem_map.mp hv with ⟨w, hw, rfl⟩
  by_cases hc : (cascadeFrontier fv.children (List.drop (li + 1) h) d).contains w.value = true
  · rw [if_pos hc]
    exact ⟨rfl, rfl⟩
  · rw [if_neg hc] at hmem ⊢
    exact absurd hmem hc

/-- Witness for C3: toggling Fruit in the concrete two-level tree selects
its descendant Apple and clears its indeterminate flag. -/
theorem toggle_cascade_descendants_witness :
    ({ value := "Apple", identity := 0, selected := true, indeterminate := false,
       children := [], parentValue := some "Fruit" } : FilterValue).selected = !false ∧
    ({ value := "Apple", identity := 0, selected := true, indeterminate := false,
       children := [], parentValue := some "Fruit" } : FilterValue).indeterminate = false := by
  have happ := toggle_cascade_descendants 5 egTree 0 "Fruit"
    { value := "Fruit", identity := 0, selected := false, indeterminate := false,
      children := ["Apple", "Banana"], parentValue := none }
    (by decide) (fun pk hpk => nomatch hpk) 0
    { value := "Apple", identity := 0, selected := true, indeterminate := false,
      children := [], parentValue := some "Fruit" }
    (by decide) (by decide)
  exact happ

/-! ### Claims about the emitted selection sets (C5, C6) -/

/-- The full set of currently-selected node identities across every group —
hierarchy levels and flat values lists — which the spec says every toggle
emits to the selection-commit collaborator. -/
def allSelectedIdentities (cats : List FilterCategory) : List Nat :=
  cats.flatMap (fun c => selectedIdsOfValues c.values ++ selectedIdsOfLevels c.hierarchyLevels)

lemma flatMap_set_eq {α β : Type} (g : α → List β) (l : List α) (i : Nat) (a b : α)
    (hib : l.get? i = some b) (hg : g a = g b) :
    (l.set i a).flatMap g = l.flatMap g := by
  induction l generalizing i with
  | nil => simp at hib
  | cons x xs ih =>
      cases i with
      | zero =>
          have hxb : x = b := by simpa using hib
          subst hxb
          simp [List.flatMap_cons, hg]
      | succ i =>
          have hib' : xs.get? i = some b := by simpa using hib
          simp [List.flatMap_cons, ih i hib']

lemma flatMap_set_nil_eq_eraseIdx {α β : Type} (g : α → List β) (l : List α) (i : Nat) (a : α)
    (hg : g a = []) :
    (l.set i a).flatMap g = (l.eraseIdx i).flatMap g := by
  induction l generalizing i with
  | nil => simp
  | cons x xs ih =>
      cases i with
      | zero => simp [List.flatMap_cons, hg]
      | succ i => simp [List.flatMap_cons, List.eraseIdx, ih i]

lemma selectedIdsOfValues_cleared (vs : List FilterValue) :
    selectedIdsOfValues (vs.map (fun v => { v with selected := false })) = [] := by
  induction vs with
  | nil => rfl
  | cons v vs ih => simp [selectedIdsOfValues, List.filter]

lemma selectedIdsOfLevels_cleared (h : Hierarchy) :
    selectedIdsOfLevels (h.map (fun l => l.map (fun v => { v with selected := false }))) = [] := by
  induction h with
  | nil => rfl
  | cons l ls ih =>
      simp only [selectedIdsOfLevels, List.map_cons, List.flatMap_cons, List.map_append] at ih ⊢
      rw [ih]
      have : (l.map (fun v => { v with selected := false })).filter (fun v => v.selected) = [] := by
        induction l with
        | nil => rfl
        | cons v vs ihv => simp [List.filter]
      simp [this]

/-- The category with all of its hierarchy nodes deselected, as the loop
of `clearHierarchySelection` leaves it (only `selected` is written). -/
def clearedHierCat (cat : FilterCategory) : FilterCategory :=
  { cat with hierarchyLevels :=
      cat.hierarchyLevels.map (fun l => l.map (fun v => { v with selected := false })) }

/-- The category with its flat values deselected, as the loop of
`clearCategorySelection` leaves it. -/
def clearedValuesCat (cat : FilterCategory) : FilterCategory :=
  { cat with values := cat.values.map (fun v => { v with selected := false }) }

/-- Claim C6 (amended): `clearGroup` sets `selected = false` on every node
of the group — all levels for a hierarchy, the flat list for a standalone
filter — but leaves `indeterminate` unchanged (the source's clear loops
write only `val.selected`); every other position of the category list is
untouched; the hierarchy clear emits the selection over the groups whose
name differs from the cleared one, computed on their old (unchanged)
state; the standalone clear scans all groups including the cleared one,
but the cleared group contributes nothing once its flat values are
deselected, so for a standalone group (no hierarchy levels) the emission
equals the selection over all other positions. -/
theorem clear_group_semantics (cats : List FilterCategory) (ci : Nat) (cat : FilterCategory)
    (hci : cats.get? ci = some cat) :
    (∀ c, (clearHierarchySelection cats ci).1.get? ci = some c →
      (∀ l ∈ c.hierarchyLevels, ∀ v ∈ l, v.selected = false) ∧
      c.hierarchyLevels.map (List.map (fun v => v.indeterminate)) =
        cat.hierarchyLevels.map (List.map (fun v => v.indeterminate)) ∧
      c.name = cat.name ∧ c.values = cat.values) ∧
    (∀ j, j ≠ ci → (clearHierarchySelection cats ci).1.get? j = cats.get? j) ∧
    ((clearHierarchySelection cats ci).2 = emitOf (cats.flatMap (fun c =>
      if c.name == cat.name then []
      else selectedIdsOfValues c.values ++ selectedIdsOfLevels c.hierarchyLevels))) ∧
    (∀ c, (clearCategorySelection cats ci).1.get? ci = some c →
      (∀ v ∈ c.values, v.selected = false) ∧
      c.values.map (fun v => v.indeterminate) = cat.values.map (fun v => v.indeterminate) ∧
      c.hierarchyLevels = cat.hierarchyLevels) ∧
    (∀ j, j ≠ ci → (clearCategorySelection cats ci).1.get? j = cats.get? j) ∧
    (cat.hierarchyLevels = [] →
      (clearCategorySelection cats ci).2 = emitOf ((cats.eraseIdx ci).flatMap (fun c =>
        selectedIdsOfValues c.values ++ selectedIdsOfLevels c.hierarchyLevels))) := by
  have hlen : ci < cats.length := by
    rw [List.get?_eq_getElem?] at hci
    exact (List.getElem?_eq_some.mp hci).1
  have hH : clearHierarchySelection cats ci =
      ((cats.set ci (clearedHierCat cat)),
       emitOf ((cats.set ci (clearedHierCat cat)).flatMap
         (fun c => if c.name == cat.name then []
          else selectedIdsOfValues c.values ++ selectedIdsOfLevels c.hierarchyLevels))) := by
    unfold clearHierarchySelection clearedHierCat
    rw [hci]
  have hC : clearCategorySelection cats ci =
      ((cats.set ci (clearedValuesCat cat)),
       emitOf ((cats.set ci (clearedValuesCat cat)).flatMap
         (fun c => selectedIdsOfValues c.values ++ selectedIdsOfLevels c.hierarchyLevels))) := by
    unfold clearCategorySelection clearedValuesCat
    rw [hci]
  refine ⟨?_, ?_, ?_, ?_, ?_, ?_⟩
  · intro c hc
    rw [hH] at hc
    simp only [List.get?_eq_getElem?, List.getElem?_set_self hlen] at hc
    cases hc
    refine ⟨?_, ?_, rfl, rfl⟩
    · intro l hl v hv
      rcases List.mem_map.mp hl with ⟨l0, _, rfl⟩
      rcases List.mem_map.mp hv with ⟨v0, _, rfl⟩
      rfl
    · simp [clearedHierCat, List.map_map, Function.comp]
  · intro j hj
    rw [hH]
    simp [List.get?_eq_getElem?, List.getElem?_set_ne (fun he => hj he.symm)]
  · rw [hH]
    simp only
    congr 1
    apply flatMap_set_eq _ _ _ _ _ hci
    simp [clearedHierCat]
  · intro c hc
    rw [hC] at hc
    simp only [List.get?_eq_getElem?, List.getElem?_set_self hlen] at hc
    cases hc
    refine ⟨?_, ?_, rfl⟩
    · intro v hv
      rcases List.mem_map.mp hv with ⟨v0, _, rfl⟩
      rfl
    · simp [clearedValuesCat, List.map_map, Function.comp]
  · intro j hj
    rw [hC]
    simp [List.get?_eq_getElem?, List.getElem?_set_ne (fun he => hj he.symm)]
  · intro hsa
    rw [hC]
    simp only
    congr 1
    apply flatMap_set_nil_eq_eraseIdx
    simp [clearedValuesCat, selectedIdsOfValues_cleared, hsa, selectedIdsOfLevels]

/-- A category list with one hierarchy group (Apple selected, Fruit
indeterminate) and one standalone group with a selected value. -/
def catProduce : FilterCategory :=
  { name := "Produce", displayName := "Produce", values := [], isHierarchy := true,
    hierarchyLevels := egIndetTree, order := 0, collapsed := false }

def catRegion : FilterCategory :=
  { name := "Region", displayName := "Region",
    values := [{ value := "North", identity := 20, selected := true, indeterminate := false,
                 children := [], parentValue := none }],
    isHierarchy := false, hierarchyLevels := [], order := 1, collapsed := false }

def egCatsPair : List FilterCategory := [catProduce, catRegion]

/-- Counterexample to claim C6 as stated: clearing the hierarchy group
leaves Fruit's `indeterminate` flag set — `clearHierarchySelection` only
writes `selected`, so the node ends at `selected = false,
indeterminate = true` instead of the claimed all-false state. -/
theorem clear_keeps_indeterminate_cex :
    ((clearHierarchySelection egCatsPair 0).1.get? 0).map (fun c =>
      (findValue (getLevel c.hierarchyLevels 0) "Fruit").map
        (fun v => (v.selected, v.indeterminate))) = some (some (false, true)) := by
  decide

/-- Witness for the amended C6: clearing the hierarchy group emits exactly
the other group's selected identity, and clearing the standalone group
emits exactly the selection of the remaining groups. -/
theorem clear_group_semantics_witness :
    (clearHierarchySelection egCatsPair 0).2 = Emission.select [20] ∧
    (clearCategorySelection egCatsPair 1).2 = Emission.select [0] := by
  have h0 := clear_group_semantics egCatsPair 0 catProduce (by rfl)
  have h1 := clear_group_semantics egCatsPair 1 catRegion (by rfl)
  constructor
  · rw [h0.2.2.1]; decide
  · rw [h1.2.2.2.2.2 (by rfl)]; decide

/-- One-node level holding a selected node with identity 10. -/
def levSel10 : Hierarchy :=
  [[{ value := "F", identity := 10, selected := true, indeterminate := false,
      children := [], parentValue := none }]]

/-- One-node level holding an unselected node with identity 11. -/
def levUnsel11 : Hierarchy :=
  [[{ value := "F", identity := 11, selected := false, indeterminate := false,
      children := [], parentValue := none }]]

/-- One-node level holding a selected node with identity 30. -/
def levSel30 : Hierarchy :=
  [[{ value := "G", identity := 30, selected := true, indeterminate := false,
      children := [], parentValue := none }]]

/-- Two groups for the standalone-toggle emission bug: a hierarchy with a
selected node (identity 10) and a standalone filter (identity 20). -/
def egCatsHS : List FilterCategory :=
  [{ name := "H", displayName := "H", values := [], isHierarchy := true,
     hierarchyLevels := levSel10, order := 0, collapsed := false },
   { name := "S", displayName := "S",
     values := [{ value := "x", identity := 20, selected := false, indeterminate := false,
                  children := [], parentValue := none }],
     isHierarchy := false, hierarchyLevels := [], order := 1, collapsed := false }]

/-- Two hierarchy groups for the hierarchy-toggle emission bug: toggling in
the first group drops the second group's selected identity (30). -/
def egCatsHH : List FilterCategory :=
  [{ name := "H1", displayName := "H1", values := [], isHierarchy := true,
     hierarchyLevels := levUnsel11, order := 0, collapsed := false },
   { name := "H2", displayName := "H2", values := [], isHierarchy := true,
     hierarchyLevels := levSel30, order := 1, collapsed := false }]

/-- Claim C5 is violated by the code: both toggle operations emit a strict
subset of the currently selected identities.  `toggleSelection` collects
only the flat `values` lists (never `hierarchyLevels`), dropping the
hierarchy selection 10; `toggleHierarchyValue` collects the toggled
hierarchy's levels plus only the flat `values` of other groups, dropping
the other hierarchy's selection 30.  In both states the full selected set
(computed by `allSelectedIdentities`, as the two clear functions do for
their emission loops) is strictly larger than what is emitted. -/
theorem toggle_emission_drops_hierarchy_selections :
    (toggleSelectionOp egCatsHS 1 0).2 = Emission.select [20] ∧
    allSelectedIdentities (toggleSelectionOp egCatsHS 1 0).1 = [10, 20] ∧
    (toggleHierarchyValueOp 5 egCatsHH 0 0 "F").2 = Emission.select [11] ∧
    allSelectedIdentities (toggleHierarchyValueOp 5 egCatsHH 0 0 "F").1 = [11, 30] := by
  decide

/-! ### Claim C7: the per-column dedup builders -/

lemma buildLevelValuesAux_eq_firstOccAux (col : List (Option String)) :
    ∀ i seen, buildLevelValuesAux col i seen = (firstOccAux col i seen).map (fun p =>
      { value := p.1, identity := p.2, selected := false, indeterminate := false,
        children := [], parentValue := none }) := by
  induction col with
  | nil => intro i seen; rfl
  | cons c cs ih =>
      intro i seen
      by_cases hc : seen.contains (normalizeCell c) = true
      · simp only [buildLevelValuesAux, firstOccAux, hc, if_pos]
        exact ih (i + 1) seen
      · simp only [buildLevelValuesAux, firstOccAux, hc, if_neg, Bool.false_eq_true,
          not_false_eq_true, List.map_cons]
        rw [ih (i + 1) (normalizeCell c :: seen)]

lemma firstOccAux_key_notin_seen (col : List (Option String)) :
    ∀ i seen, ∀ p ∈ firstOccAux col i seen, p.1 ∉ seen := by
  induction col with
  | nil => intro i seen p hp; simp [firstOccAux] at hp
  | cons c cs ih =>
      intro i seen p hp
      by_cases hc : seen.contains (normalizeCell c) = true
      · rw [firstOccAux, if_pos hc] at hp
        exact ih (i + 1) seen p hp
      · rw [firstOccAux, if_neg hc] at hp
        rcases List.mem_cons.mp hp with hhead | htail
        · subst hhead
          simpa using hc
        · intro habs
          exact ih (i + 1) (normalizeCell c :: seen) p htail (List.mem_cons_of_mem _ habs)

lemma firstOccAux_keys_nodup (col : List (Option String)) :
    ∀ i seen, ((firstOccAux col i seen).map Prod.fst).Nodup := by
  induction col with
  | nil => intro i seen; simp [firstOccAux]
  | cons c cs ih =>
      intro i seen
      by_cases hc : seen.contains (normalizeCell c) = true
      · rw [firstOccAux, if_pos hc]
        exact ih (i + 1) seen
      · rw [firstOccAux, if_neg hc]
        rw [List.map_cons, List.nodup_cons]
        refine ⟨?_, ih (i + 1) (normalizeCell c :: seen)⟩
        intro habs
        rcases List.mem_map.mp habs with ⟨p, hp, hpk⟩
        exact firstOccAux_key_notin_seen cs (i + 1) (normalizeCell c :: seen) p hp
          (hpk ▸ List.mem_cons_self _ _)

lemma firstOccAux_keys_iff (col : List (Option String)) :
    ∀ i seen k, k ∈ (firstOccAux col i seen).map Prod.fst ↔
      (k ∈ col.map normalizeCell ∧ k ∉ seen) := by
  induction col with
  | nil => intro i seen k; simp [firstOccAux]
  | cons c cs ih =>
      intro i seen k
      by_cases hc : seen.contains (normalizeCell c) = true
      · rw [firstOccAux, if_pos hc]
        rw [ih (i + 1) seen k]
        have hcmem : normalizeCell c ∈ seen := by simpa using hc
        constructor
        · rintro ⟨hmem, hns⟩
          exact ⟨List.mem_cons_of_mem _ hmem, hns⟩
        · rintro ⟨hmem, hns⟩
          rw [List.map_cons] at hmem
          rcases List.mem_cons.mp hmem with heq | htl
          · exact absurd (heq ▸ hcmem) hns
          · exact ⟨htl, hns⟩
      · rw [firstOccAux, if_neg hc]
        have hcmem : normalizeCell c ∉ seen := by simpa using hc
        rw [List.map_cons, List.mem_cons, ih (i + 1) (normalizeCell c :: seen) k]
        constructor
        · rintro (heq | ⟨hmem, hns⟩)
          · subst heq; exact ⟨by simp, hcmem⟩
          · exact ⟨List.mem_cons_of_mem _ hmem, fun habs =>
              hns (List.mem_cons_of_mem _ habs)⟩
        · rintro ⟨hmem, hns⟩
          by_cases hk : k = normalizeCell c
          · exact Or.inl hk
          · refine Or.inr ⟨?_, ?_⟩
            · rw [List.map_cons] at hmem
              rcases List.mem_cons.mp hmem with heq | htl
              · exact absurd heq hk
              · exact htl
            · intro habs
              rcases List.mem_cons.mp habs with heq | htl
              · exact hk heq
              · exact hns htl

lemma firstOccAux_snd_eq_indexOf (col : List (Option String)) :
    ∀ i seen, ∀ p ∈ firstOccAux col i seen,
      p.2 = i + (col.map normalizeCell).indexOf p.1 := by
  induction col with
  | nil => intro i seen p hp; simp [firstOccAux] at hp
  | cons c cs ih =>
      intro i seen p hp
      by_cases hc : seen.contains (normalizeCell c) = true
      · rw [firstOccAux, if_pos hc] at hp
        have hne : p.1 ≠ normalizeCell c := by
          intro habs
          exact firstOccAux_key_notin_seen cs (i + 1) seen p hp (habs ▸ (by simpa using hc))
        rw [List.map_cons, List.indexOf_cons_ne _ (fun he => hne he.symm)]
        have := ih (i + 1) seen p hp
        omega
      · rw [firstOccAux, if_neg hc] at hp
        rcases List.mem_cons.mp hp with hhead | htail
        · subst hhead
          simp [List.indexOf_cons_self]
        · have hne : p.1 ≠ normalizeCell c := by
            intro habs
            exact firstOccAux_key_notin_seen cs (i + 1) (normalizeCell c :: seen) p htail
              (habs ▸ List.mem_cons_self _ _)
          rw [List.map_cons, List.indexOf_cons_ne _ (fun he => hne he.symm)]
          have := ih (i + 1) (normalizeCell c :: seen) p htail
          omega

lemma firstOccAux_snd_pairwise (col : List (Option String)) :
    ∀ i seen, List.Pairwise (· < ·) ((firstOccAux col i seen).map Prod.snd) := by
  induction col with
  | nil => intro i seen; simp [firstOccAux]
  | cons c cs ih =>
      intro i seen
      by_cases hc : seen.contains (normalizeCell c) = true
      · rw [firstOccAux, if_pos hc]
        exact ih (i + 1) seen
      · rw [firstOccAux, if_neg hc]
        rw [List.map_cons, List.pairwise_cons]
        refine ⟨?_, ih (i + 1) (normalizeCell c :: seen)⟩
        intro n hn
        rcases List.mem_map.mp hn with ⟨p, hp, hpn⟩
        have := firstOccAux_snd_eq_indexOf cs (i + 1) (normalizeCell c :: seen) p hp
        omega

/-- Claim C7: for every input column, the hierarchy-level builder and the
standalone builder produce the same node list; its keys are exactly the
distinct canonical keys of the column (no duplicates), its length is the
number of distinct canonical keys, each node's identity token is minted
from the row index of its key's first occurrence (hence each is minted
exactly once), and the nodes appear in first-occurrence row order (their
first-occurrence indices are strictly increasing along the list). -/
theorem build_values_dedup (col : List (Option String)) :
    buildLevelValues col = buildCategoryValues col ∧
    ((buildCategoryValues col).map (fun v => v.value)).Nodup ∧
    (∀ k, k ∈ (buildCategoryValues col).map (fun v => v.value) ↔ k ∈ col.map normalizeCell) ∧
    (buildCategoryValues col).length = (col.map normalizeCell).dedup.length ∧
    (∀ v ∈ buildCategoryValues col, v.identity = (col.map normalizeCell).indexOf v.value) ∧
    List.Pairwise (· < ·) ((buildCategoryValues col).map (fun v => v.identity)) := by
  have hmapv : (buildCategoryValues col).map (fun v => v.value) =
      (firstOcc col).map Prod.fst := by
    simp [buildCategoryValues, List.map_map, Function.comp]
  have hmapi : (buildCategoryValues col).map (fun v => v.identity) =
      (firstOcc col).map Prod.snd := by
    simp [buildCategoryValues, List.map_map, Function.comp]
  refine ⟨?_, ?_, ?_, ?_, ?_, ?_⟩
  · rw [buildLevelValues, buildLevelValuesAux_eq_firstOccAux col 0 []]
    rfl
  · rw [hmapv]
    exact firstOccAux_keys_nodup col 0 []
  · intro k
    rw [hmapv]
    have := firstOccAux_keys_iff col 0 [] k
    simpa using this
  · have hlen1 : (buildCategoryValues col).length = ((firstOcc col).map Prod.fst).length := by
      simp [buildCategoryValues]
    have hnd : ((firstOcc col).map Prod.fst).Nodup := firstOccAux_keys_nodup col 0 []
    have hset : ((firstOcc col).map Prod.fst).toFinset = (col.map normalizeCell).toFinset := by
      ext k
      rw [List.mem_toFinset, List.mem_toFinset]
      have := firstOccAux_keys_iff col 0 [] k
      simpa using this
    have hsetd : ((col.map normalizeCell).dedup).toFinset = (col.map normalizeCell).toFinset := by
      ext k
      rw [List.mem_toFinset, List.mem_toFinset]
      exact List.mem_dedup
    rw [hlen1, ← List.toFinset_card_of_nodup hnd, hset, ← hsetd,
      List.toFinset_card_of_nodup (List.nodup_dedup _)]
  · intro v hv
    rcases List.mem_map.mp hv with ⟨p, hp, rfl⟩
    have := firstOccAux_snd_eq_indexOf col 0 [] p hp
    simpa using this
  · rw [hmapi]
    exact firstOccAux_snd_pairwise col 0 []

/-! ### Claim C9: the field grouper -/

/-- Specification-side, stateless per-field rendering of the grouper
algorithm as the spec describes it: a field already consumed (an earlier
field shares its lineage key) emits nothing; a first representative emits
its whole lineage class as one group — a hierarchy when the class has more
than one field (levels in original order), a standalone group otherwise;
a field with no lineage key emits a standalone group.  The refinement
theorem below shows the source's stateful fold equals this. -/
def specEmit (E : List (Nat × InputField)) (g : Nat × InputField) : List COItem :=
  match g.2.queryName with
  | none => [COItem.single g.2.displayName g.1]
  | some qn =>
      let b := baseNameOf qn
      if E.any (fun g' => sameBaseB b g' && decide (g'.1 < g.1)) then []
      else
        let related := E.filter (sameBaseB b)
        if related.length > 1 then
          [COItem.hier (hierGroupName g.2.displayName b) (related.map (fun x => x.1))]
        else [COItem.single g.2.displayName g.1]

/-- The index of the first field of an emitted group. -/
def itemFirstIndex : COItem → Nat
  | COItem.single _ i => i
  | COItem.hier _ idxs => idxs.headD 0

lemma eq_of_fst_eq_of_pairwise {E : List (Nat × InputField)}
    (hE : List.Pairwise (fun a b => a.1 < b.1) E) :
    ∀ r ∈ E, ∀ g ∈ E, r.1 = g.1 → r = g := by
  induction E with
  | nil => intro r hr; exact absurd hr (List.not_mem_nil r)
  | cons a l ih =>
      intro r hr g hg heq
      rcases List.pairwise_cons.mp hE with ⟨ha, hl⟩
      rcases List.mem_cons.mp hr with hr0 | hr1 <;> rcases List.mem_cons.mp hg with hg0 | hg1
      · rw [hr0, hg0]
      · subst hr0; exact absurd heq (by have := ha g hg1; omega)
      · subst hg0; exact absurd heq (by have := ha r hr1; omega)
      · exact ih hl r hr1 g hg1 heq

lemma groupFold_spec (E : List (Nat × InputField))
    (hE : List.Pairwise (fun a b => a.1 < b.1) E) :
    ∀ (suffix : List (Nat × InputField)) (order : List COItem) (processed : List Nat),
      (∀ g ∈ suffix, g ∈ E) →
      List.Pairwise (fun a b => a.1 < b.1) suffix →
      (∀ g ∈ suffix, (processed.contains g.1 = true ↔
        ∃ qn, g.2.queryName = some qn ∧ ∃ g' ∈ E,
          sameBaseB (baseNameOf qn) g' = true ∧ g'.1 < g.1 ∧ g' ∉ suffix)) →
      (suffix.foldl (groupStep E) (order, processed)).1 = order ++ suffix.flatMap (specEmit E) := by
  intro suffix
  induction suffix with
  | nil => intro order processed _ _ _; simp
  | cons g0 rest ih =>
      intro order processed hsub hpw hinv
      have hg0E : g0 ∈ E := hsub g0 (List.mem_cons_self g0 rest)
      have hg0lt : ∀ g ∈ rest, g0.1 < g.1 := (List.pairwise_cons.mp hpw).1
      have hrest_pw : List.Pairwise (fun a b => a.1 < b.1) rest := (List.pairwise_cons.mp hpw).2
      have hrest_sub : ∀ g ∈ rest, g ∈ E := fun g hg => hsub g (List.mem_cons_of_mem g0 hg)
      have hg0_notin_rest : g0 ∉ rest := fun habs => by have := hg0lt g0 habs; omega
      have hw_not_suffix : ∀ g' : Nat × InputField, g'.1 < g0.1 → g' ∉ g0 :: rest := by
        intro g' hlt hmem
        rcases List.mem_cons.mp hmem with h0 | hr
        · rw [h0] at hlt; omega
        · have := hg0lt g' hr; omega
      have hinv0 := hinv g0 (List.mem_cons_self g0 rest)
      have hinvr := fun g hg => hinv g (List.mem_cons_of_mem g0 hg)
      rw [List.foldl_cons, List.flatMap_cons]
      cases hqn : g0.2.queryName with
      | none =>
          have hskip : processed.contains g0.1 ≠ true := by
            intro hc
            obtain ⟨qn', hqn', _⟩ := hinv0.mp hc
            rw [hqn] at hqn'
            exact Option.noConfusion hqn'
          have hstep : groupStep E (order, processed) g0 =
              (order ++ [COItem.single g0.2.displayName g0.1], processed ++ [g0.1]) := by
            unfold groupStep
            rw [if_neg hskip, hqn]
          rw [hstep, ih _ _ hrest_sub hrest_pw ?_]
          · rw [specEmit, hqn]
            simp
          · intro g hg
            have hne : ((processed ++ [g0.1]).contains g.1 = true) ↔
                (processed.contains g.1 = true) := by
              have hx : g.1 ≠ g0.1 := by have := hg0lt g hg; omega
              simp [hx]
            rw [hne, hinvr g hg]
            constructor
            · rintro ⟨qn', hqn', g', hg'E, hsb, hlt, hnin⟩
              exact ⟨qn', hqn', g', hg'E, hsb, hlt,
                fun habs => hnin (List.mem_cons_of_mem g0 habs)⟩
            · rintro ⟨qn', hqn', g', hg'E, hsb, hlt, hnin⟩
              refine ⟨qn', hqn', g', hg'E, hsb, hlt, ?_⟩
              intro habs
              rcases List.mem_cons.mp habs with h0 | hr
              · rw [h0, sameBaseB, hqn] at hsb
                exact Bool.noConfusion hsb
              · exact hnin hr
      | some qn =>
          have hskip_iff : processed.contains g0.1 = true ↔
              E.any (fun g' => sameBaseB (baseNameOf qn) g' && decide (g'.1 < g0.1)) = true := by
            constructor
            · intro hc
              obtain ⟨qn', hqn', g', hg'E, hsb, hlt, _⟩ := hinv0.mp hc
              rw [hqn] at hqn'
              cases hqn'
              rw [List.any_eq_true]
              refine ⟨g', hg'E, ?_⟩
              rw [Bool.and_eq_true]
              exact ⟨hsb, by simp [hlt]⟩
            · intro hany
              rw [List.any_eq_true] at hany
              obtain ⟨g', hg'E, hb⟩ := hany
              rw [Bool.and_eq_true] at hb
              have hlt : g'.1 < g0.1 := by simpa using hb.2
              exact hinv0.mpr ⟨qn, hqn, g', hg'E, hb.1, hlt, hw_not_suffix g' hlt⟩
          by_cases hany : E.any (fun g' =>
              sameBaseB (baseNameOf qn) g' && decide (g'.1 < g0.1)) = true
          · have hskip : processed.contains g0.1 = true := hskip_iff.mpr hany
            have hstep : groupStep E (order, processed) g0 = (order, processed) := by
              unfold groupStep
              rw [if_pos hskip]
            rw [hstep, ih _ _ hrest_sub hrest_pw ?_, specEmit, hqn]
            · simp only [hany, if_pos]
              simp
            · intro g hg
              rw [hinvr g hg]
              constructor
              · rintro ⟨qn', hqn', g', hg'E, hsb, hlt, hnin⟩
                exact ⟨qn', hqn', g', hg'E, hsb, hlt,
                  fun habs => hnin (List.mem_cons_of_mem g0 habs)⟩
              · rintro ⟨qn', hqn', g', hg'E, hsb, hlt, hnin⟩
                by_cases hgg0 : g' = g0
                · obtain ⟨qn2, hqn2, w, hwE, hwsb, hwlt, hwnin⟩ := hinv0.mp hskip
                  rw [hqn] at hqn2
                  cases hqn2
                  have hbase_eq : baseNameOf qn = baseNameOf qn' := by
                    rw [hgg0, sameBaseB, hqn] at hsb
                    simpa using hsb
                  refine ⟨qn', hqn', w, hwE, ?_, ?_, ?_⟩
                  · rw [sameBaseB] at hwsb ⊢
                    rw [← hbase_eq]
                    exact hwsb
                  · have : g0.1 < g.1 := hg0lt g hg
                    rw [hgg0] at hlt
                    omega
                  · exact hwnin
                · refine ⟨qn', hqn', g', hg'E, hsb, hlt, ?_⟩
                  intro habs
                  rcases List.mem_cons.mp habs with h0 | hr
                  · exact hgg0 h0
                  · exact hnin hr
          · have hskip : processed.contains g0.1 ≠ true := fun hc => hany (hskip_iff.mp hc)
            have hstep : groupStep E (order, processed) g0 =
                (order ++ [if (E.filter (sameBaseB (baseNameOf qn))).length > 1 then
                    COItem.hier (hierGroupName g0.2.displayName (baseNameOf qn))
                      ((E.filter (sameBaseB (baseNameOf qn))).map (fun g => g.1))
                  else COItem.single g0.2.displayName g0.1],
                 processed ++ (E.filter (sameBaseB (baseNameOf qn))).map (fun g => g.1)) := by
              unfold groupStep
              rw [if_neg hskip, hqn]
              by_cases hlen : (E.filter (sameBaseB (baseNameOf qn))).length > 1
              · simp [hlen]
              · simp [hlen]
            rw [hstep, ih _ _ hrest_sub hrest_pw ?_]
            · rw [specEmit, hqn]
              simp only [hany, if_neg, Bool.false_eq_true, not_false_eq_true]
              by_cases hlen : (E.filter (sameBaseB (baseNameOf qn))).length > 1
              · simp [hlen]
              · simp [hlen]
            · intro g hg
              have hmem_iff : ((processed ++ (E.filter (sameBaseB (baseNameOf qn))).map
                  (fun g => g.1)).contains g.1 = true) ↔
                  (processed.contains g.1 = true ∨
                   g.1 ∈ (E.filter (sameBaseB (baseNameOf qn))).map (fun g => g.1)) := by
                simp
              rw [hmem_iff, hinvr g hg]
              have hrelated_mem : g.1 ∈ (E.filter (sameBaseB (baseNameOf qn))).map
                  (fun g => g.1) ↔ sameBaseB (baseNameOf qn) g = true := by
                constructor
                · intro hm
                  rcases List.mem_map.mp hm with ⟨r, hr, hrfst⟩
                  have hrE : r ∈ E := List.mem_of_mem_filter hr
                  have hrB : sameBaseB (baseNameOf qn) r = true := List.of_mem_filter hr
                  have hreq : r = g := eq_of_fst_eq_of_pairwise hE r hrE g (hrest_sub g hg) hrfst
                  rw [← hreq]
                  exact hrB
                · intro hsb
                  exact List.mem_map.mpr ⟨g, List.mem_filter.mpr ⟨hrest_sub g hg, hsb⟩, rfl⟩
              rw [hrelated_mem]
              constructor
              · rintro (⟨qn', hqn', g', hg'E, hsb, hlt, hnin⟩ | hsb)
                · exact ⟨qn', hqn', g', hg'E, hsb, hlt,
                    fun habs => hnin (List.mem_cons_of_mem g0 habs)⟩
                · cases hqng : g.2.queryName with
                  | none => rw [sameBaseB, hqng] at hsb; exact Bool.noConfusion hsb
                  | some qng =>
                      rw [sameBaseB, hqng] at hsb
                      have hbb : baseNameOf qng = baseNameOf qn := by simpa using hsb
                      refine ⟨qng, rfl, g0, hg0E, ?_, hg0lt g hg, hg0_notin_rest⟩
                      rw [sameBaseB, hqn]
                      simp [hbb]
              · rintro ⟨qn', hqn', g', hg'E, hsb, hlt, hnin⟩
                by_cases hgg0 : g' = g0
                · refine Or.inr ?_
                  have hbase_eq : baseNameOf qn = baseNameOf qn' := by
                    rw [hgg0, sameBaseB, hqn] at hsb
                    simpa using hsb
                  rw [sameBaseB, hqn']
                  simp [hbase_eq]
                · refine Or.inl ⟨qn', hqn', g', hg'E, hsb, hlt, ?_⟩
                  intro habs
                  rcases List.mem_cons.mp habs with h0 | hr
                  · exact hgg0 h0
                  · exact hnin hr

lemma pairwise_of_length_le_one {α : Type} {R : α → α → Prop} {l : List α}
    (h : l.length ≤ 1) : l.Pairwise R := by
  match l with
  | [] => exact List.Pairwise.nil
  | [x] => exact List.pairwise_singleton R x
  | x :: y :: _ => simp at h

lemma length_specEmit_le (E : List (Nat × InputField)) (g : Nat × InputField) :
    (specEmit E g).length ≤ 1 := by
  unfold specEmit
  cases g.2.queryName with
  | none => simp
  | some qn =>
      by_cases hany : E.any (fun g' => sameBaseB (baseNameOf qn) g' && decide (g'.1 < g.1)) = true
      · simp [hany]
      · simp only [hany, if_neg, Bool.false_eq_true, not_false_eq_true]
        by_cases hlen : (E.filter (sameBaseB (baseNameOf qn))).length > 1
        · simp [hlen]
        · simp [hlen]

lemma specEmit_firstIndex (E : List (Nat × InputField))
    (hE : List.Pairwise (fun a b => a.1 < b.1) E) (g : Nat × InputField) (hg : g ∈ E) :
    ∀ item ∈ specEmit E g, itemFirstIndex item = g.1 := by
  intro item hitem
  unfold specEmit at hitem
  cases hqn : g.2.queryName with
  | none =>
      rw [hqn] at hitem
      dsimp only at hitem
      rcases List.mem_cons.mp hitem with h0 | habs
      · rw [h0]; rfl
      · simp at habs
  | some qn =>
      rw [hqn] at hitem
      dsimp only at hitem
      by_cases hany : E.any (fun g' => sameBaseB (baseNameOf qn) g' && decide (g'.1 < g.1)) = true
      · rw [if_pos hany] at hitem
        simp at hitem
      · rw [if_neg hany] at hitem
        have hgB : sameBaseB (baseNameOf qn) g = true := by
          rw [sameBaseB, hqn]
          simp
        have hgrel : g ∈ E.filter (sameBaseB (baseNameOf qn)) :=
          List.mem_filter.mpr ⟨hg, hgB⟩
        by_cases hlen : (E.filter (sameBaseB (baseNameOf qn))).length > 1
        · rw [if_pos hlen] at hitem
          rcases List.mem_cons.mp hitem with h0 | habs
          · rw [h0]
            cases hrel : E.filter (sameBaseB (baseNameOf qn)) with
            | nil => rw [hrel] at hgrel; exact absurd hgrel (List.not_mem_nil g)
            | cons r0 rs =>
                have hr0 : g = r0 := by
                  rw [hrel] at hgrel
                  rcases List.mem_cons.mp hgrel with h | hmem
                  · exact h
                  · exfalso
                    have hpw : List.Pairwise (fun a b => a.1 < b.1)
                        (E.filter (sameBaseB (baseNameOf qn))) := hE.filter _
                    rw [hrel] at hpw
                    have hr0g : r0.1 < g.1 := (List.pairwise_cons.mp hpw).1 g hmem
                    have hr0E : r0 ∈ E := by
                      have : r0 ∈ E.filter (sameBaseB (baseNameOf qn)) := by
                        rw [hrel]; exact List.mem_cons_self r0 rs
                      exact List.mem_of_mem_filter this
                    have hr0B : sameBaseB (baseNameOf qn) r0 = true := by
                      have : r0 ∈ E.filter (sameBaseB (baseNameOf qn)) := by
                        rw [hrel]; exact List.mem_cons_self r0 rs
                      exact List.of_mem_filter this
                    apply hany
                    rw [List.any_eq_true]
                    refine ⟨r0, hr0E, ?_⟩
                    rw [Bool.and_eq_true]
                    exact ⟨hr0B, by simp [hr0g]⟩
                rw [hr0]
                rfl
          · simp at habs
        · rw [if_neg hlen] at hitem
          rcases List.mem_cons.mp hitem with h0 | habs
          · rw [h0]; rfl
          · simp at habs

lemma specEmit_flatMap_pairwise (E : List (Nat × InputField))
    (hE : List.Pairwise (fun a b => a.1 < b.1) E) :
    ∀ suffix : List (Nat × InputField), (∀ g ∈ suffix, g ∈ E) →
      List.Pairwise (fun a b => a.1 < b.1) suffix →
      List.Pairwise (· < ·) ((suffix.flatMap (specEmit E)).map itemFirstIndex) := by
  intro suffix
  induction suffix with
  | nil => intro _ _; simp
  | cons g0 rest ih =>
      intro hsub hpw
      rw [List.flatMap_cons, List.map_append]
      rw [List.pairwise_append]
      refine ⟨?_, ?_, ?_⟩
      · exact pairwise_of_length_le_one (by
          rw [List.length_map]; exact length_specEmit_le E g0)
      · exact ih (fun g hg => hsub g (List.mem_cons_of_mem g0 hg))
          (List.pairwise_cons.mp hpw).2
      · intro a ha b hb
        rcases List.mem_map.mp ha with ⟨item0, hitem0, rfl⟩
        rcases List.mem_map.mp hb with ⟨item1, hitem1, rfl⟩
        rcases List.mem_flatMap.mp hitem1 with ⟨g1, hg1, hitem1'⟩
        rw [specEmit_firstIndex E hE g0 (hsub g0 (List.mem_cons_self g0 rest)) item0 hitem0,
          specEmit_firstIndex E hE g1 (hsub g1 (List.mem_cons_of_mem g0 hg1)) item1 hitem1']
        exact (List.pairwise_cons.mp hpw).1 g1 hg1

lemma enum_pairwise_fst (fields : List InputField) :
    List.Pairwise (fun a b => (a : Nat × InputField).1 < b.1) fields.enum := by
  have h1 : List.Pairwise (· < ·) (fields.enum.map Prod.fst) := by
    rw [List.enum_map_fst]
    exact List.pairwise_lt_range _
  exact (List.pairwise_map.mp h1)

/-- Claim C9 (amended): the grouper's stateful fold over the fields equals
the stateless specification `specEmit`: in input order, each field that an
earlier field's lineage key already consumed emits nothing; the first
field of each lineage class emits the whole class (all fields with that
key, in their original order) as a hierarchy when the class has more than
one field and as a standalone group otherwise, the hierarchy's name being
the first '.'-separated segment of the first field's display name (or the
lineage key when the display name is absent or that segment empty); a
field without lineage key emits a standalone group named by its display
name.  Consequently the emitted groups are ordered by the index of each
group's first field (strictly increasing). -/
theorem grouper_refines_spec (fields : List InputField) :
    buildCategoryOrder fields = fields.enum.flatMap (specEmit fields.enum) ∧
    List.Pairwise (· < ·) ((buildCategoryOrder fields).map itemFirstIndex) := by
  have hE := enum_pairwise_fst fields
  have hmain : buildCategoryOrder fields = fields.enum.flatMap (specEmit fields.enum) := by
    unfold buildCategoryOrder
    have := groupFold_spec fields.enum hE fields.enum [] [] (fun g hg => hg) hE ?_
    · rw [this]
      simp
    · intro g hg
      constructor
      · intro hc
        simp at hc
      · rintro ⟨qn, hqn, g', hg'E, _, _, hnin⟩
        exact absurd hg'E hnin
  refine ⟨hmain, ?_⟩
  rw [hmain]
  exact specEmit_flatMap_pairwise fields.enum hE fields.enum (fun g hg => hg) hE

/-- Fields whose first display name contains a dot: the grouper names the
hierarchy with the first segment only. -/
def egFieldsDot : List InputField :=
  [{ displayName := some "Sales.Region", queryName := some "T.C1" },
   { displayName := some "Extra", queryName := some "T.C2" }]

/-- Counterexample to claim C9 as stated: the two related fields are
grouped into one hierarchy whose name is "Sales" — the first '.'-separated
segment of the display name "Sales.Region" — not the display name itself
as the claim requires. -/
theorem grouper_name_splits_cex :
    buildCategoryOrder egFieldsDot = [COItem.hier "Sales" [0, 1]] ∧
    "Sales" ≠ "Sales.Region" := by
  constructor
  · rfl
  · decide

/-! ### Claim C8: the linking pass -/

/-- The (parent, child) canonical keys read from the raw columns at level
pair `(i, i+1)` in row `r`. -/
def pairAt (cols : List (List (Option String))) (i r : Nat) : String × String :=
  (getCell (cols.getD i []) r, getCell (cols.getD (i + 1) []) r)

/-- The distinct canonical keys of a column — the key set of its per-level
dedup map. -/
def keysOfCol (col : List (Option String)) : List String :=
  (buildLevelValues col).map (fun v => v.value)

/-- Are both ends of the row-`r` link at level pair `i` present in their
levels' dedup maps?  (A miss is the spec's "skipped edge".) -/
def linkableAt (cols : List (List (Option String))) (i r : Nat) : Bool :=
  (keysOfCol (cols.getD i [])).contains (pairAt cols i r).1 &&
  (keysOfCol (cols.getD (i + 1) [])).contains (pairAt cols i r).2

/-- Does row `r` insert a new edge at level pair `i`: both ends resolve
and the same (parent, child) pair did not occur in any earlier row. -/
def isNewEdge (cols : List (List (Option String))) (i r : Nat) : Bool :=
  linkableAt cols i r &&
  (List.range r).all (fun r' => !(pairAt cols i r' = pairAt cols i r : Bool))

/-- The children the linking pass has appended to parent key `p` at level
`i` after the first `upTo` rows: the child keys of the new edges with
parent `p`, in row order. -/
def childrenSpec (cols : List (List (Option String))) (i : Nat) (p : String) (upTo : Nat) :
    List String :=
  (List.range upTo).filterMap (fun r =>
    if (pairAt cols i r).1 = p ∧ isNewEdge cols i r = true then some (pairAt cols i r).2 else none)

/-- The parent key of the most recent row that newly linked child key `c`
at level pair `i` among the first `upTo` rows (the "last-linked-wins"
value of the child's `parentValue`). -/
def lastLinkedParent (cols : List (List (Option String))) (i : Nat) (c : String) (upTo : Nat) :
    Option String :=
  ((List.range upTo).filterMap (fun r =>
    if (pairAt cols i r).2 = c ∧ isNewEdge cols i r = true then some (pairAt cols i r).1
    else none)).getLast?

/-- The keys of one level of a hierarchy state. -/
def levelKeys (h : Hierarchy) (j : Nat) : List String :=
  (getLevel h j).map (fun v => v.value)

lemma keysOfCol_nodup (col : List (Option String)) : (keysOfCol col).Nodup := by
  unfold keysOfCol buildLevelValues
  rw [buildLevelValuesAux_eq_firstOccAux col 0 []]
  have h := firstOccAux_keys_nodup col 0 []
  simpa [List.map_map, Function.comp] using h

lemma findValue_eq_none_iff (l : HierLevel) (k : String) :
    findValue l k = none ↔ k ∉ l.map (fun v => v.value) := by
  unfold findValue
  rw [List.find?_eq_none]
  constructor
  · intro hall hmem
    rcases List.mem_map.mp hmem with ⟨v, hv, hvk⟩
    exact hall v hv (by simp [hvk])
  · intro hnm v hv hbeq
    exact hnm (List.mem_map.mpr ⟨v, hv, by simpa using hbeq⟩)

lemma findValue_mem_and_value {l : HierLevel} {k : String} {p : FilterValue}
    (hp : findValue l k = some p) : p ∈ l ∧ p.value = k :=
  ⟨List.mem_of_find?_eq_some hp, by simpa using List.find?_some hp⟩

lemma updateFirst_mem_char {l : HierLevel} {k : String} {f : FilterValue → FilterValue}
    (hnd : (l.map (fun v => v.value)).Nodup) :
    ∀ v' ∈ updateFirst k f l,
      (v' ∈ l ∧ v'.value ≠ k) ∨ (∃ v ∈ l, v.value = k ∧ v' = f v) := by
  induction l with
  | nil => intro v' hv'; simp [updateFirst] at hv'
  | cons v vs ih =>
      intro v' hv'
      rw [List.map_cons, List.nodup_cons] at hnd
      by_cases hvk : v.value == k
      · rw [updateFirst, if_pos hvk] at hv'
        rcases List.mem_cons.mp hv' with h0 | htail
        · exact Or.inr ⟨v, List.mem_cons_self v vs, by simpa using hvk, h0⟩
        · refine Or.inl ⟨List.mem_cons_of_mem v htail, ?_⟩
          intro habs
          apply hnd.1
          have hvkeq : v.value = k := by simpa using hvk
          rw [hvkeq, ← habs]
          exact List.mem_map.mpr ⟨v', htail, rfl⟩
      · rw [updateFirst, if_neg hvk] at hv'
        rcases List.mem_cons.mp hv' with h0 | htail
        · exact Or.inl ⟨by rw [h0]; exact List.mem_cons_self v vs, by
            rw [h0]; simpa using hvk⟩
        · rcases ih hnd.2 v' htail with ⟨hm, hne⟩ | ⟨w, hw, hwk, hweq⟩
          · exact Or.inl ⟨List.mem_cons_of_mem v hm, hne⟩
          · exact Or.inr ⟨w, List.mem_cons_of_mem v hw, hwk, hweq⟩

lemma levelKeys_updateLevel (h : Hierarchy) (i : Nat) (f : HierLevel → HierLevel) (j : Nat)
    (hf : (f (getLevel h i)).map (fun v => v.value) = (getLevel h i).map (fun v => v.value)) :
    levelKeys (updateLevel h i f) j = levelKeys h j := by
  by_cases hij : i = j
  · subst hij
    by_cases hlen : i < h.length
    · rw [levelKeys, getLevel_updateLevel_self h i f hlen, hf]; rfl
    · unfold levelKeys getLevel updateLevel
      rw [List.getD_eq_getElem?_getD, List.getD_eq_getElem?_getD, List.getElem?_set]
      rw [List.getElem?_eq_none_iff.mpr (by omega : h.length ≤ i)]
      simp [hlen]
  · rw [levelKeys, getLevel_updateLevel_ne h i j f hij]; rfl

lemma value_map_updateFirst (k : String) (f : FilterValue → FilterValue)
    (hf : ∀ v, (f v).value = v.value) (l : HierLevel) :
    (updateFirst k f l).map (fun v => v.value) = l.map (fun v => v.value) := by
  induction l with
  | nil => rfl
  | cons v vs ih =>
      by_cases hv : v.value == k
      · simp [updateFirst, hv, hf]
      · simp [updateFirst, hv, ih]

lemma getLevel_init (cols : List (List (Option String))) (j : Nat) :
    getLevel (cols.map buildLevelValues) j = buildLevelValues (cols.getD j []) := by
  unfold getLevel
  by_cases hj : j < cols.length
  · have : (cols.map buildLevelValues).getD j (buildLevelValues []) =
        buildLevelValues (cols.getD j []) := List.getD_map cols [] buildLevelValues
    rw [← this]
    rw [List.getD_eq_getElem?_getD, List.getD_eq_getElem?_getD]
    cases hx : (cols.map buildLevelValues)[j]? with
    | none =>
        exfalso
        have := List.getElem?_eq_none_iff.mp hx
        rw [List.length_map] at this
        omega
    | some l => simp
  · rw [List.getD_eq_getElem?_getD,
      List.getElem?_eq_none_iff.mpr (by rw [List.length_map]; omega)]
    have : cols.getD j [] = [] := by
      rw [List.getD_eq_getElem?_getD, List.getElem?_eq_none_iff.mpr (by omega)]
      rfl
    rw [this]
    rfl

lemma buildLevelValues_children_parent (col : List (Option String)) :
    ∀ v ∈ buildLevelValues col, v.children = [] ∧ v.parentValue = none := by
  intro v hv
  rw [buildLevelValues, buildLevelValuesAux_eq_firstOccAux col 0 []] at hv
  rcases List.mem_map.mp hv with ⟨p, _, rfl⟩
  exact ⟨rfl, rfl⟩

lemma childrenSpec_succ (cols : List (List (Option String))) (i : Nat) (p : String) (R : Nat) :
    childrenSpec cols i p (R + 1) = childrenSpec cols i p R ++
      (if (pairAt cols i R).1 = p ∧ isNewEdge cols i R = true then [(pairAt cols i R).2]
       else []) := by
  unfold childrenSpec
  rw [List.range_succ, List.filterMap_append]
  congr 1
  by_cases hc : (pairAt cols i R).1 = p ∧ isNewEdge cols i R = true
  · simp [hc]
  · simp [hc]

lemma lastLinkedParent_succ (cols : List (List (Option String))) (i : Nat) (c : String) (R : Nat) :
    lastLinkedParent cols i c (R + 1) =
      if (pairAt cols i R).2 = c ∧ isNewEdge cols i R = true then some (pairAt cols i R).1
      else lastLinkedParent cols i c R := by
  unfold lastLinkedParent
  rw [List.range_succ, List.filterMap_append]
  by_cases hc : (pairAt cols i R).2 = c ∧ isNewEdge cols i R = true
  · rw [if_pos hc]
    have : List.filterMap (fun r =>
        if (pairAt cols i r).2 = c ∧ isNewEdge cols i r = true then some (pairAt cols i r).1
        else none) [R] = [(pairAt cols i R).1] := by
      simp [hc]
    rw [this, List.getLast?_concat]
  · rw [if_neg hc]
    have : List.filterMap (fun r =>
        if (pairAt cols i r).2 = c ∧ isNewEdge cols i r = true then some (pairAt cols i r).1
        else none) [R] = [] := by
      simp [hc]
    rw [this, List.append_nil]

lemma mem_childrenSpec_iff (cols : List (List (Option String))) (i : Nat) (p c : String)
    (R : Nat) :
    c ∈ childrenSpec cols i p R ↔
      ∃ r, r < R ∧ pairAt cols i r = (p, c) ∧ isNewEdge cols i r = true := by
  unfold childrenSpec
  rw [List.mem_filterMap]
  constructor
  · rintro ⟨r, hr, hcond⟩
    rw [List.mem_range] at hr
    by_cases hc : (pairAt cols i r).1 = p ∧ isNewEdge cols i r = true
    · rw [if_pos hc] at hcond
      refine ⟨r, hr, ?_, hc.2⟩
      have h2 : (pairAt cols i r).2 = c := by
        injection hcond
      have h1 := hc.1
      cases hpair : pairAt cols i r
      rw [hpair] at h1 h2
      simp at h1 h2
      rw [h1, h2]
    · rw [if_neg hc] at hcond
      exact Option.noConfusion hcond
  · rintro ⟨r, hr, hpair, hnew⟩
    refine ⟨r, List.mem_range.mpr hr, ?_⟩
    rw [if_pos ⟨by rw [hpair], hnew⟩, hpair]

lemma linkableAt_of_pair_eq (cols : List (List (Option String))) (i r r' : Nat)
    (hp : pairAt cols i r = pairAt cols i r') : linkableAt cols i r = linkableAt cols i r' := by
  unfold linkableAt
  rw [hp]

lemma new_edge_of_occurs (cols : List (List (Option String))) (i R : Nat) (pc : String × String)
    (hex : ∃ r, r < R ∧ pairAt cols i r = pc)
    (hlk : ∀ r, pairAt cols i r = pc → linkableAt cols i r = true) :
    ∃ r, r < R ∧ pairAt cols i r = pc ∧ isNewEdge cols i r = true := by
  have h0 : ∃ r, pairAt cols i r = pc := by
    obtain ⟨r, _, hr⟩ := hex
    exact ⟨r, hr⟩
  let r0 := Nat.find h0
  have hr0 : pairAt cols i r0 = pc := Nat.find_spec h0
  have hr0min : ∀ r' < r0, pairAt cols i r' ≠ pc := fun r' hlt => Nat.find_min h0 hlt
  have hr0lt : r0 < R := by
    obtain ⟨r, hrR, hr⟩ := hex
    have := Nat.find_min' h0 hr
    omega
  refine ⟨r0, hr0lt, hr0, ?_⟩
  unfold isNewEdge
  rw [Bool.and_eq_true]
  constructor
  · exact hlk r0 hr0
  · rw [List.all_eq_true]
    intro r' hr'
    rw [List.mem_range] at hr'
    have hne : pairAt cols i r' ≠ pairAt cols i r0 := by
      rw [hr0]
      exact hr0min r' hr'
    simp [hne]

lemma contains_childrenSpec_iff (cols : List (List (Option String))) (i R : Nat) (p c : String)
    (hlk : ∀ r, pairAt cols i r = (p, c) → linkableAt cols i r = true) :
    c ∈ childrenSpec cols i p R ↔ ∃ r, r < R ∧ pairAt cols i r = (p, c) := by
  rw [mem_childrenSpec_iff]
  constructor
  · rintro ⟨r, hr, hpair, _⟩
    exact ⟨r, hr, hpair⟩
  · intro hex
    obtain ⟨r, hr, hpair, hnew⟩ := new_edge_of_occurs cols i R (p, c) hex hlk
    exact ⟨r, hr, hpair, hnew⟩

lemma childrenSpec_nodup (cols : List (List (Option String))) (i : Nat) (p : String) (R : Nat) :
    (childrenSpec cols i p R).Nodup := by
  unfold childrenSpec
  apply List.Nodup.filterMap ?_ (List.nodup_range R)
  intro r r' b hb hb'
  by_cases hc : (pairAt cols i r).1 = p ∧ isNewEdge cols i r = true
  · rw [if_pos hc] at hb
    by_cases hc' : (pairAt cols i r').1 = p ∧ isNewEdge cols i r' = true
    · rw [if_pos hc'] at hb'
      simp only [Option.mem_def, Option.some.injEq] at hb hb'
      have hpp : pairAt cols i r = pairAt cols i r' := by
        cases hp1 : pairAt cols i r
        cases hp2 : pairAt cols i r'
        have e1 := hc.1
        have e2 := hc'.1
        rw [hp1] at e1 hb
        rw [hp2] at e2 hb'
        simp at e1 e2 hb hb'
        rw [e1, e2, hb, hb']
      rcases Nat.lt_trichotomy r r' with hlt | heq | hgt
      · exfalso
        have hnew := hc'.2
        unfold isNewEdge at hnew
        rw [Bool.and_eq_true, List.all_eq_true] at hnew
        have := hnew.2 r (List.mem_range.mpr hlt)
        simp [hpp] at this
      · exact heq
      · exfalso
        have hnew := hc.2
        unfold isNewEdge at hnew
        rw [Bool.and_eq_true, List.all_eq_true] at hnew
        have := hnew.2 r' (List.mem_range.mpr hgt)
        simp [hpp] at this
    · rw [if_neg hc'] at hb'
      exact absurd hb' (by simp)
  · rw [if_neg hc] at hb
    exact absurd hb (by simp)

lemma childrenSpec_succ_of_not_new (cols : List (List (Option String))) (I R : Nat)
    (hnew : isNewEdge cols I R = false) (q : String) :
    childrenSpec cols I q (R + 1) = childrenSpec cols I q R := by
  rw [childrenSpec_succ]
  simp [hnew]

lemma lastLinkedParent_succ_of_not_new (cols : List (List (Option String))) (I R : Nat)
    (hnew : isNewEdge cols I R = false) (q : String) :
    lastLinkedParent cols I q (R + 1) = lastLinkedParent cols I q R := by
  rw [lastLinkedParent_succ]
  simp [hnew]

/-- The invariant of the linking pass: after fully processing the first
`R` rows and, within the current row `R`, the level pairs `< I`, the keys
per level are the dedup keys, every node's `children` equals the spec
children for its per-pair row counter, every non-root node's `parentValue`
is the last-linked parent for its counter, and level-0 nodes have no
parent. -/
def linkInv (cols : List (List (Option String))) (R I : Nat) (h : Hierarchy) : Prop :=
  (∀ j, levelKeys h j = keysOfCol (cols.getD j [])) ∧
  (∀ j, ∀ v ∈ getLevel h j,
    v.children = childrenSpec cols j v.value (if j < I then R + 1 else R)) ∧
  (∀ j, ∀ v ∈ getLevel h (j + 1),
    v.parentValue = lastLinkedParent cols j v.value (if j < I then R + 1 else R)) ∧
  (∀ v ∈ getLevel h 0, v.parentValue = none)

lemma linkInv_init (cols : List (List (Option String))) :
    linkInv cols 0 0 (cols.map buildLevelValues) := by
  refine ⟨?_, ?_, ?_, ?_⟩
  · intro j
    rw [levelKeys, getLevel_init]
    rfl
  · intro j v hv
    rw [getLevel_init] at hv
    rw [(buildLevelValues_children_parent _ v hv).1]
    simp [childrenSpec]
  · intro j v hv
    rw [getLevel_init] at hv
    rw [(buildLevelValues_children_parent _ v hv).2]
    simp [lastLinkedParent]
  · intro v hv
    rw [getLevel_init] at hv
    exact (buildLevelValues_children_parent _ v hv).2

lemma linkInv_shift_of_not_new (cols : List (List (Option String))) (R I : Nat) (h : Hierarchy)
    (hnew : isNewEdge cols I R = false) (hinv : linkInv cols R I h) :
    linkInv cols R (I + 1) h := by
  obtain ⟨hK, hC, hP, hZ⟩ := hinv
  refine ⟨hK, ?_, ?_, hZ⟩
  · intro j v hv
    by_cases hjI : j = I
    · subst hjI
      rw [if_pos (by omega), childrenSpec_succ_of_not_new cols j R hnew]
      have := hC j v hv
      rwa [if_neg (by omega)] at this
    · have hiff : (j < I + 1) ↔ (j < I) := by omega
      rw [if_congr hiff rfl rfl]
      exact hC j v hv
  · intro j v hv
    by_cases hjI : j = I
    · subst hjI
      rw [if_pos (by omega), lastLinkedParent_succ_of_not_new cols j R hnew]
      have := hP j v hv
      rwa [if_neg (by omega)] at this
    · have hiff : (j < I + 1) ↔ (j < I) := by omega
      rw [if_congr hiff rfl rfl]
      exact hP j v hv

lemma mem_keys_of_findValue {h : Hierarchy} {j : Nat} {k : String} {v : FilterValue}
    (hf : findValue (getLevel h j) k = some v) : k ∈ levelKeys h j := by
  obtain ⟨hmem, hval⟩ := findValue_mem_and_value hf
  exact hval ▸ List.mem_map.mpr ⟨v, hmem, rfl⟩

lemma not_new_of_not_linkable (cols : List (List (Option String))) (I R : Nat)
    (hnl : linkableAt cols I R = false) : isNewEdge cols I R = false := by
  unfold isNewEdge
  rw [hnl]
  rfl

lemma linkPairStep_inv (cols : List (List (Option String))) (R I : Nat) (h : Hierarchy)
    (hinv : linkInv cols R I h) :
    linkInv cols R (I + 1)
      (linkPairStep h I (pairAt cols I R).1 (pairAt cols I R).2) := by
  obtain ⟨hK, hC, hP, hZ⟩ := hinv
  cases hfp : findValue (getLevel h I) (pairAt cols I R).1 with
  | none =>
      have hstep : linkPairStep h I (pairAt cols I R).1 (pairAt cols I R).2 = h := by
        unfold linkPairStep
        rw [hfp]
      rw [hstep]
      apply linkInv_shift_of_not_new cols R I h ?_ ⟨hK, hC, hP, hZ⟩
      apply not_new_of_not_linkable
      have hmem : (pairAt cols I R).1 ∉ keysOfCol (cols.getD I []) := by
        rw [← hK I]
        exact (findValue_eq_none_iff _ _).mp hfp
      unfold linkableAt
      rw [Bool.and_eq_false_iff]
      left
      simpa using hmem
  | some pnode =>
      cases hfc : findValue (getLevel h (I + 1)) (pairAt cols I R).2 with
      | none =>
          have hstep : linkPairStep h I (pairAt cols I R).1 (pairAt cols I R).2 = h := by
            unfold linkPairStep
            rw [hfp, hfc]
          rw [hstep]
          apply linkInv_shift_of_not_new cols R I h ?_ ⟨hK, hC, hP, hZ⟩
          apply not_new_of_not_linkable
          have hmem : (pairAt cols I R).2 ∉ keysOfCol (cols.getD (I + 1) []) := by
            rw [← hK (I + 1)]
            exact (findValue_eq_none_iff _ _).mp hfc
          unfold linkableAt
          rw [Bool.and_eq_false_iff]
          right
          simpa using hmem
      | some cnode =>
          have hpmem := (findValue_mem_and_value hfp).1
          have hpval := (findValue_mem_and_value hfp).2
          have hcmem := (findValue_mem_and_value hfc).1
          have hcval := (findValue_mem_and_value hfc).2
          have hlkI : (pairAt cols I R).1 ∈ keysOfCol (cols.getD I []) := by
            rw [← hK I]; exact mem_keys_of_findValue hfp
          have hlkI1 : (pairAt cols I R).2 ∈ keysOfCol (cols.getD (I + 1) []) := by
            rw [← hK (I + 1)]; exact mem_keys_of_findValue hfc
          have hlk : ∀ r, pairAt cols I r = ((pairAt cols I R).1, (pairAt cols I R).2) →
              linkableAt cols I r = true := by
            intro r hr
            unfold linkableAt
            rw [hr]
            rw [Bool.and_eq_true]
            constructor
            · simpa using hlkI
            · simpa using hlkI1
          have hpair_eta : pairAt cols I R = ((pairAt cols I R).1, (pairAt cols I R).2) := rfl
          have hchildren_p : pnode.children =
              childrenSpec cols I (pairAt cols I R).1 R := by
            have := hC I pnode hpmem
            rw [if_neg (by omega), hpval] at this
            exact this
          by_cases hg : pnode.children.contains (pairAt cols I R).2 = true
          · have hstep : linkPairStep h I (pairAt cols I R).1 (pairAt cols I R).2 = h := by
              unfold linkPairStep
              rw [hfp, hfc]
              dsimp only
              rw [if_pos hg]
            rw [hstep]
            apply linkInv_shift_of_not_new cols R I h ?_ ⟨hK, hC, hP, hZ⟩
            have hocc : ∃ r, r < R ∧
                pairAt cols I r = ((pairAt cols I R).1, (pairAt cols I R).2) := by
              have hcmem2 : (pairAt cols I R).2 ∈ childrenSpec cols I (pairAt cols I R).1 R := by
                rw [← hchildren_p]
                simpa using hg
              exact (contains_childrenSpec_iff cols I R _ _ hlk).mp hcmem2
            obtain ⟨r, hrR, hrpair⟩ := hocc
            unfold isNewEdge
            rw [Bool.and_eq_false_iff]
            right
            rw [← Bool.not_eq_true, List.all_eq_true]
            intro hall
            have := hall r (List.mem_range.mpr hrR)
            rw [← hpair_eta] at hrpair
            simp [hrpair] at this
          · have hnew : isNewEdge cols I R = true := by
              unfold isNewEdge
              rw [Bool.and_eq_true]
              constructor
              · exact hlk R hpair_eta
              · rw [List.all_eq_true]
                intro r hr
                rw [List.mem_range] at hr
                have hnocc : ¬ (pairAt cols I r =
                    ((pairAt cols I R).1, (pairAt cols I R).2)) := by
                  intro habs
                  apply hg
                  have : (pairAt cols I R).2 ∈ childrenSpec cols I (pairAt cols I R).1 R :=
                    (contains_childrenSpec_iff cols I R _ _ hlk).mpr ⟨r, hr, habs⟩
                  rw [← hchildren_p] at this
                  simpa using this
                rw [← hpair_eta] at hnocc
                simp [hnocc]
            have hlenI : I < h.length := findValue_lt_length hfp
            have hlenI1 : I + 1 < h.length := findValue_lt_length hfc
            have hndI : ((getLevel h I).map (fun v => v.value)).Nodup := by
              have := hK I
              rw [levelKeys] at this
              rw [this]
              exact keysOfCol_nodup _
            have hndI1 : ((getLevel h (I + 1)).map (fun v => v.value)).Nodup := by
              have := hK (I + 1)
              rw [levelKeys] at this
              rw [this]
              exact keysOfCol_nodup _
            have hstep : linkPairStep h I (pairAt cols I R).1 (pairAt cols I R).2 =
                updateLevel (updateLevel h I (updateFirst (pairAt cols I R).1
                  (fun v => { v with children := v.children ++ [(pairAt cols I R).2] })))
                  (I + 1) (updateFirst (pairAt cols I R).2
                  (fun v => { v with parentValue := some (pairAt cols I R).1 })) := by
              unfold linkPairStep
              rw [hfp, hfc]
              dsimp only
              rw [if_neg hg]
            rw [hstep]
            have hL1len : (updateLevel h I (updateFirst (pairAt cols I R).1
                (fun v => { v with children := v.children ++ [(pairAt cols I R).2] }))).length =
                h.length := length_updateLevel h I _
            have hlev_other : ∀ j, j ≠ I → j ≠ I + 1 →
                getLevel (updateLevel (updateLevel h I (updateFirst (pairAt cols I R).1
                  (fun v => { v with children := v.children ++ [(pairAt cols I R).2] })))
                  (I + 1) (updateFirst (pairAt cols I R).2
                  (fun v => { v with parentValue := some (pairAt cols I R).1 }))) j =
                getLevel h j := by
              intro j hjI hjI1
              rw [getLevel_updateLevel_ne _ _ _ _ (fun he => hjI1 he.symm),
                getLevel_updateLevel_ne _ _ _ _ (fun he => hjI he.symm)]
            have hlevI : getLevel (updateLevel (updateLevel h I (updateFirst (pairAt cols I R).1
                  (fun v => { v with children := v.children ++ [(pairAt cols I R).2] })))
                  (I + 1) (updateFirst (pairAt cols I R).2
                  (fun v => { v with parentValue := some (pairAt cols I R).1 }))) I =
                updateFirst (pairAt cols I R).1
                  (fun v => { v with children := v.children ++ [(pairAt cols I R).2] })
                  (getLevel h I) := by
              rw [getLevel_updateLevel_ne _ _ _ _ (by omega),
                getLevel_updateLevel_self _ _ _ hlenI]
            have hlevI1 : getLevel (updateLevel (updateLevel h I (updateFirst (pairAt cols I R).1
                  (fun v => { v with children := v.children ++ [(pairAt cols I R).2] })))
                  (I + 1) (updateFirst (pairAt cols I R).2
                  (fun v => { v with parentValue := some (pairAt cols I R).1 }))) (I + 1) =
                updateFirst (pairAt cols I R).2
                  (fun v => { v with parentValue := some (pairAt cols I R).1 })
                  (getLevel h (I + 1)) := by
              rw [getLevel_updateLevel_self _ _ _ (by rw [hL1len]; omega),
                getLevel_updateLevel_ne _ _ _ _ (by omega)]
            refine ⟨?_, ?_, ?_, ?_⟩
            · intro j
              rw [levelKeys, ← hK j, levelKeys]
              by_cases hjI : j = I
              · rw [hjI, hlevI]
                exact value_map_updateFirst (pairAt cols I R).1
                  (fun v => { v with children := v.children ++ [(pairAt cols I R).2] })
                  (fun v => rfl) (getLevel h I)
              · by_cases hjI1 : j = I + 1
                · rw [hjI1, hlevI1]
                  exact value_map_updateFirst (pairAt cols I R).2
                    (fun v => { v with parentValue := some (pairAt cols I R).1 })
                    (fun v => rfl) (getLevel h (I + 1))
                · rw [hlev_other j hjI hjI1]
            · intro j v' hv'
              by_cases hjI : j = I
              · rw [hjI] at hv' ⊢
                rw [hlevI] at hv'
                rw [if_pos (by omega), childrenSpec_succ]
                rcases updateFirst_mem_char hndI v' hv' with ⟨hm, hne⟩ | ⟨v, hvm, hveq, rfl⟩
                · rw [if_neg (by
                    intro habs
                    exact hne (habs.1.symm ▸ rfl))]
                  rw [List.append_nil]
                  have := hC I v' hm
                  rwa [if_neg (by omega)] at this
                · have hval' : v.value = (pairAt cols I R).1 := hveq
                  rw [if_pos ⟨by simpa using hval'.symm, hnew⟩]
                  show v.children ++ [(pairAt cols I R).2] = _
                  have := hC I v hvm
                  rw [if_neg (by omega), hveq] at this
                  rw [this, hval']
              · by_cases hjI1 : j = I + 1
                · rw [hjI1] at hv' ⊢
                  rw [hlevI1] at hv'
                  have hiff : (I + 1 < I + 1) ↔ (I + 1 < I) := by omega
                  rw [if_congr hiff rfl rfl]
                  rcases updateFirst_mem_char hndI1 v' hv' with ⟨hm, _⟩ | ⟨v, hvm, hveq, rfl⟩
                  · exact hC (I + 1) v' hm
                  · show v.children = _
                    exact hC (I + 1) v hvm
                · rw [hlev_other j hjI hjI1] at hv'
                  have hiff : (j < I + 1) ↔ (j < I) := by omega
                  rw [if_congr hiff rfl rfl]
                  exact hC j v' hv'
            · intro j v' hv'
              by_cases hjI : j = I
              · rw [hjI] at hv' ⊢
                rw [hlevI1] at hv'
                rw [if_pos (by omega), lastLinkedParent_succ]
                rcases updateFirst_mem_char hndI1 v' hv' with ⟨hm, hne⟩ | ⟨v, hvm, hveq, rfl⟩
                · rw [if_neg (by
                    intro habs
                    exact hne (habs.1.symm ▸ rfl))]
                  have := hP I v' hm
                  rwa [if_neg (by omega)] at this
                · have hval' : v.value = (pairAt cols I R).2 := hveq
                  rw [if_pos ⟨by simpa using hval'.symm, hnew⟩]
              · by_cases hjI1 : j + 1 = I
                · have hlevj1 : getLevel (updateLevel (updateLevel h I
                      (updateFirst (pairAt cols I R).1
                      (fun v => { v with children := v.children ++ [(pairAt cols I R).2] })))
                      (I + 1) (updateFirst (pairAt cols I R).2
                      (fun v => { v with parentValue := some (pairAt cols I R).1 }))) (j + 1) =
                      updateFirst (pairAt cols I R).1
                        (fun v => { v with children := v.children ++ [(pairAt cols I R).2] })
                        (getLevel h (j + 1)) := by
                    rw [hjI1]
                    exact hlevI
                  rw [hlevj1] at hv'
                  have hiff : (j < I + 1) ↔ (j < I) := by omega
                  rw [if_congr hiff rfl rfl]
                  rcases updateFirst_mem_char (by rw [hjI1]; exact hndI) v' hv' with
                    ⟨hm, _⟩ | ⟨v, hvm, hveq, rfl⟩
                  · exact hP j v' hm
                  · show v.parentValue = _
                    exact hP j v hvm
                · rw [hlev_other (j + 1) hjI1 (by omega)] at hv'
                  have hiff : (j < I + 1) ↔ (j < I) := by omega
                  rw [if_congr hiff rfl rfl]
                  exact hP j v' hv'
            · intro v' hv'
              by_cases hI0 : I = 0
              · rw [← hI0] at hv'
                rw [hlevI] at hv'
                rcases updateFirst_mem_char hndI v' hv' with ⟨hm, _⟩ | ⟨v, hvm, _, rfl⟩
                · rw [hI0] at hm
                  exact hZ v' hm
                · show v.parentValue = none
                  rw [hI0] at hvm
                  exact hZ v hvm
              · rw [hlev_other 0 (fun he => hI0 he.symm) (by omega)] at hv'
                exact hZ v' hv'

lemma linkable_out_of_range (cols : List (List (Option String))) (j r : Nat)
    (hj : cols.length ≤ j + 1) : linkableAt cols j r = false := by
  have hcol : cols.getD (j + 1) [] = [] := by
    rw [List.getD_eq_getElem?_getD, List.getElem?_eq_none hj]
    rfl
  unfold linkableAt
  rw [hcol]
  simp [keysOfCol, buildLevelValues, buildLevelValuesAux]

lemma linkInv_rollover (cols : List (List (Option String))) (R : Nat) (h : Hierarchy)
    (hinv : linkInv cols R (cols.length - 1) h) : linkInv cols (R + 1) 0 h := by
  obtain ⟨hK, hC, hP, hZ⟩ := hinv
  refine ⟨hK, ?_, ?_, hZ⟩
  · intro j v hv
    rw [if_neg (by omega)]
    have hthis := hC j v hv
    by_cases hj : j < cols.length - 1
    · rwa [if_pos hj] at hthis
    · rw [if_neg hj] at hthis
      rw [childrenSpec_succ_of_not_new cols j R
        (not_new_of_not_linkable cols j R (linkable_out_of_range cols j R (by omega)))]
      exact hthis
  · intro j v hv
    rw [if_neg (by omega)]
    have hthis := hP j v hv
    by_cases hj : j < cols.length - 1
    · rwa [if_pos hj] at hthis
    · rw [if_neg hj] at hthis
      rw [lastLinkedParent_succ_of_not_new cols j R
        (not_new_of_not_linkable cols j R (linkable_out_of_range cols j R (by omega)))]
      exact hthis

lemma linkRow_fold_inv (cols : List (List (Option String))) (R : Nat) (h : Hierarchy)
    (hinv : linkInv cols R 0 h) (m : Nat) :
    linkInv cols R m ((List.range m).foldl
      (fun h' i => linkPairStep h' i (pairAt cols i R).1 (pairAt cols i R).2) h) := by
  induction m with
  | zero => exact hinv
  | succ n ih =>
      rw [List.range_succ, List.foldl_append]
      exact linkPairStep_inv cols R n _ ih

lemma linkRow_eq_fold (cols : List (List (Option String))) (r : Nat) (h : Hierarchy) :
    linkRow cols r h = (List.range (cols.length - 1)).foldl
      (fun h' i => linkPairStep h' i (pairAt cols i r).1 (pairAt cols i r).2) h := rfl

lemma linkRow_inv (cols : List (List (Option String))) (R : Nat) (h : Hierarchy)
    (hinv : linkInv cols R 0 h) : linkInv cols (R + 1) 0 (linkRow cols R h) := by
  apply linkInv_rollover
  rw [linkRow_eq_fold]
  exact linkRow_fold_inv cols R h hinv (cols.length - 1)

lemma buildHierarchy_fold_inv (cols : List (List (Option String))) (N : Nat) :
    linkInv cols N 0 ((List.range N).foldl (fun h r => linkRow cols r h)
      (cols.map buildLevelValues)) := by
  induction N with
  | zero => exact linkInv_init cols
  | succ n ih =>
      rw [List.range_succ, List.foldl_append]
      exact linkRow_inv cols n _ ih

lemma buildHierarchy_inv (cols : List (List (Option String))) :
    linkInv cols (cols.headD []).length 0 (buildHierarchy cols) :=
  buildHierarchy_fold_inv cols (cols.headD []).length

/-- C8: after the hierarchy linking pass (`processData`, visual.ts:252-274),
every node's `children` list is duplicate-free — at most one entry per
distinct child key, since the append is guarded by a `contains` check — and
equals the child keys of the new edges of the full row scan that have this
node as parent, in row order; and every non-root node's `parentValue` is the
parent key of the most recent row that newly linked that child key
(last-linked-wins overwriting), while root-level nodes keep no parent. -/
theorem link_pass_children_nodup_last_parent (cols : List (List (Option String))) :
    (∀ j, ∀ v ∈ getLevel (buildHierarchy cols) j,
      v.children.Nodup ∧
      v.children = childrenSpec cols j v.value (cols.headD []).length) ∧
    (∀ j, ∀ v ∈ getLevel (buildHierarchy cols) (j + 1),
      v.parentValue = lastLinkedParent cols j v.value (cols.headD []).length) ∧
    (∀ v ∈ getLevel (buildHierarchy cols) 0, v.parentValue = none) := by
  obtain ⟨hK, hC, hP, hZ⟩ := buildHierarchy_inv cols
  refine ⟨?_, ?_, hZ⟩
  · intro j v hv
    have hc := hC j v hv
    rw [if_neg (by omega)] at hc
    exact ⟨hc ▸ childrenSpec_nodup cols j v.value _, hc⟩
  · intro j v hv
    have hp := hP j v hv
    rwa [if_neg (by omega)] at hp

def colsW8 : List (List (Option String)) :=
  [[some "F", some "F", some "V"], [some "A", some "A", some "A"]]

def vA8 : FilterValue :=
  { value := "A", identity := 0, selected := false, indeterminate := false,
    children := [], parentValue := some "V" }

/-- Witness for C8: on a concrete two-level input where child key "A"
co-occurs under parents "F" (row 0) and "V" (row 2), the child node is a
member of the built level 1 and its `parentValue` is the last-linked
parent. -/
theorem link_pass_children_nodup_last_parent_witness :
    vA8 ∈ getLevel (buildHierarchy colsW8) 1 ∧
      vA8.parentValue = lastLinkedParent colsW8 0 vA8.value (colsW8.headD []).length := by
  have hm : vA8 ∈ getLevel (buildHierarchy colsW8) 1 := by decide
  exact ⟨hm, (link_pass_children_nodup_last_parent colsW8).2.1 0 vA8 hm⟩

lemma length_cascade (ks : List String) (sel : Bool) (ls : List HierLevel) :
    (cascadeSelectionToDescendants ks sel ls).length = ls.length := by
  induction ls generalizing ks with
  | nil => rfl
  | cons l ls ih => simp [cascadeSelectionToDescendants, ih]

lemma length_toggleMidState (h : Hierarchy) (li : Nat) (k : String) :
    (toggleMidState h li k).length = h.length := by
  cases hx : findValue (getLevel h li) k with
  | none => unfold toggleMidState; rw [hx]
  | some fv =>
      rw [toggleMidState_of_found hx, List.length_append, List.length_take, length_cascade,
        List.length_drop, length_updateLevel]
      have := findValue_lt_length hx
      omega

lemma length_chainFold (g : Hierarchy) (c : List (Nat × String)) :
    (chainFold g c).length = g.length := by
  induction c generalizing g with
  | nil => rfl
  | cons x rest ih => rw [chainFold_cons, ih, length_recomputeStepAt]

lemma hier_ext {g h : Hierarchy} (hl : g.length = h.length)
    (hg : ∀ j, getLevel g j = getLevel h j) : g = h := by
  apply List.ext_getElem?
  intro n
  by_cases hn : n < h.length
  · have h1 : g[n]? = some (getLevel g n) := by
      rw [List.getElem?_eq_getElem (show n < g.length by omega)]
      simp [getLevel, List.getD_eq_getElem?_getD,
        List.getElem?_eq_getElem (show n < g.length by omega)]
    have h2 : h[n]? = some (getLevel h n) := by
      rw [List.getElem?_eq_getElem hn]
      simp [getLevel, List.getD_eq_getElem?_getD, List.getElem?_eq_getElem hn]
    rw [h1, h2, hg n]
  · rw [List.getElem?_eq_none (by omega), List.getElem?_eq_none (by omega)]

lemma getD_drop (ls : List HierLevel) (n d : Nat) :
    (List.drop n ls).getD d [] = ls.getD (n + d) [] := by
  simp [List.getD_eq_getElem?_getD, List.getElem?_drop]

lemma mem_getLevel_lt_length {h : Hierarchy} {j : Nat} {v : FilterValue}
    (hv : v ∈ getLevel h j) : j < h.length := by
  by_contra hge
  have hnil : getLevel h j = [] := by
    simp [getLevel, List.getD_eq_getElem?_getD,
      List.getElem?_eq_none_iff.mpr (by omega : h.length ≤ j)]
  rw [hnil] at hv
  exact absurd hv (List.not_mem_nil v)

lemma updateFirst_updateFirst (k : String) (g f : FilterValue → FilterValue) (l : HierLevel)
    (hf : ∀ v, (f v).value = v.value) :
    updateFirst k g (updateFirst k f l) = updateFirst k (fun v => g (f v)) l := by
  induction l with
  | nil => rfl
  | cons v vs ih =>
      by_cases hv : v.value == k
      · have hfv : (f v).value == k := by rw [hf v]; exact hv
        simp [updateFirst, hv, hfv]
      · simp [updateFirst, hv, ih]

lemma updateFirst_found_fix {l : HierLevel} {k : String} {p : FilterValue}
    {f : FilterValue → FilterValue}
    (hfind : findValue l k = some p) (hfp : f p = p) :
    updateFirst k f l = l := by
  induction l with
  | nil => simp [findValue] at hfind
  | cons v vs ih =>
      by_cases hv : v.value == k
      · have hpv : v = p := by
          have hfind' := hfind
          simp [findValue, List.find?, hv] at hfind'
          exact hfind'
        subst hpv
        simp [updateFirst, hv, hfp]
      · have hf' : findValue vs k = some p := by
          have hfind' := hfind
          simp [findValue, List.find?, hv] at hfind'
          simpa [findValue] using hfind'
        simp [updateFirst, hv, ih hf']

lemma getLevel_toggleMidState_lt {h : Hierarchy} {li : Nat} {k : String} {fv : FilterValue}
    (hfv : findValue (getLevel h li) k = some fv) {j : Nat} (hj : j < li) :
    getLevel (toggleMidState h li k) j = getLevel h j := by
  have hlen : li < h.length := findValue_lt_length hfv
  rw [toggleMidState_of_found hfv,
    getLevel_take_append _ _ (li + 1) j (by omega) (by rw [length_updateLevel]; omega),
    getLevel_updateLevel_ne _ _ _ _ (by omega)]

lemma getLevel_toggleMidState_self {h : Hierarchy} {li : Nat} {k : String} {fv : FilterValue}
    (hfv : findValue (getLevel h li) k = some fv) :
    getLevel (toggleMidState h li k) li =
      updateFirst k (fun v => { v with selected := !fv.selected }) (getLevel h li) := by
  have hlen : li < h.length := findValue_lt_length hfv
  rw [toggleMidState_of_found hfv,
    getLevel_take_append _ _ (li + 1) li (by omega) (by rw [length_updateLevel]; omega),
    getLevel_updateLevel_self _ _ _ hlen]

lemma drop_toggleMidState {h : Hierarchy} {li : Nat} {k : String} {fv : FilterValue}
    (hfv : findValue (getLevel h li) k = some fv) :
    List.drop (li + 1) (toggleMidState h li k) =
      cascadeSelectionToDescendants fv.children (!fv.selected) (List.drop (li + 1) h) := by
  have hlen : li < h.length := findValue_lt_length hfv
  rw [toggleMidState_of_found hfv, drop_updateLevel]
  have hlt : (List.take (li + 1) (updateLevel h li (updateFirst k
      (fun v => { v with selected := !fv.selected })))).length = li + 1 := by
    rw [List.length_take, length_updateLevel]; omega
  rw [List.drop_left' hlt]

lemma getElem?_recomputeStepAt_ne (h : Hierarchy) (i j : Nat) (k : String) (hij : i ≠ j) :
    (recomputeStepAt h i k)[j]? = h[j]? := by
  unfold recomputeStepAt
  cases hx : findValue (getLevel h i) k with
  | none => rfl
  | some p => exact List.getElem?_set_ne hij

lemma drop_chainFold (g : Hierarchy) (c : List (Nat × String)) (n : Nat)
    (hc : ∀ x ∈ c, x.1 < n) :
    List.drop n (chainFold g c) = List.drop n g := by
  induction c generalizing g with
  | nil => rfl
  | cons x rest ih =>
      rw [chainFold_cons, ih _ (fun y hy => hc y (List.mem_cons_of_mem x hy))]
      apply List.ext_getElem?
      intro d
      rw [List.getElem?_drop, List.getElem?_drop]
      exact getElem?_recomputeStepAt_ne g x.1 (n + d) x.2
        (by have := hc x (List.mem_cons_self x rest); omega)

lemma nodeShape_cascade_fun (ks : List String) (s : Bool) (v : FilterValue) :
    nodeShape (if ks.contains v.value then
      { v with selected := s, indeterminate := false } else v) = nodeShape v := by
  by_cases hv : ks.contains v.value = true
  · rw [if_pos hv]; rfl
  · rw [if_neg hv]

lemma map_self {α : Type} (l : List α) (f : α → α) (hf : ∀ a ∈ l, f a = a) : l.map f = l := by
  induction l with
  | nil => rfl
  | cons a l ih =>
      rw [List.map_cons, hf a (List.mem_cons_self a l),
        ih (fun b hb => hf b (List.mem_cons_of_mem a hb))]

lemma frontier_map (ks0 ks : List String) (s : Bool) (l : HierLevel) :
    ((l.map (fun v => if ks0.contains v.value then
        { v with selected := s, indeterminate := false } else v)).filter
      (fun v => ks.contains v.value)).flatMap (fun v => v.children) =
    (l.filter (fun v => ks.contains v.value)).flatMap (fun v => v.children) := by
  induction l with
  | nil => rfl
  | cons v vs ih =>
      rw [List.map_cons]
      have hval : ((if ks0.contains v.value then
          { v with selected := s, indeterminate := false } else v) : FilterValue).value = v.value := by
        by_cases h0 : ks0.contains v.value = true
        · rw [if_pos h0]
        · rw [if_neg h0]
      have hch : ((if ks0.contains v.value then
          { v with selected := s, indeterminate := false } else v) : FilterValue).children = v.children := by
        by_cases h0 : ks0.contains v.value = true
        · rw [if_pos h0]
        · rw [if_neg h0]
      by_cases hv : ks.contains v.value = true
      · simp only [List.filter_cons, hval, hv, if_true, List.flatMap_cons, hch, ih]
      · have hvf : ks.contains v.value = false := by simpa using hv
        simp only [List.filter_cons, hval, hvf, Bool.false_eq_true, if_false, ih]

lemma cascadeFrontier_cascade (ls : List HierLevel) : ∀ (ks ksf : List String) (s : Bool) (d : Nat),
    cascadeFrontier ksf (cascadeSelectionToDescendants ks s ls) d = cascadeFrontier ksf ls d := by
  induction ls with
  | nil =>
      intro ks ksf s d
      cases d <;> rfl
  | cons l ls ih =>
      intro ks ksf s d
      cases d with
      | zero => rfl
      | succ d =>
          show cascadeFrontier (((l.map (fun v => if ks.contains v.value then
              { v with selected := s, indeterminate := false } else v)).filter
                (fun v => ksf.contains v.value)).flatMap (fun v => v.children))
              (cascadeSelectionToDescendants
                ((l.filter (fun v => ks.contains v.value)).flatMap (fun v => v.children)) s ls) d =
            cascadeFrontier
              ((l.filter (fun v => ksf.contains v.value)).flatMap (fun v => v.children)) ls d
          rw [frontier_map]
          exact ih _ _ s d

lemma hierShape_ext {g h : Hierarchy} (hl : g.length = h.length)
    (hg : ∀ j, (getLevel g j).map nodeShape = (getLevel h j).map nodeShape) :
    hierShape g = hierShape h := by
  apply List.ext_getElem?
  intro n
  simp only [hierShape, List.getElem?_map]
  by_cases hn : n < h.length
  · rw [List.getElem?_eq_getElem (show n < g.length by omega), List.getElem?_eq_getElem hn]
    simp only [Option.map_some']
    have h1 : g[n] = getLevel g n := by
      simp [getLevel, List.getD_eq_getElem?_getD,
        List.getElem?_eq_getElem (show n < g.length by omega)]
    have h2 : h[n] = getLevel h n := by
      simp [getLevel, List.getD_eq_getElem?_getD, List.getElem?_eq_getElem hn]
    rw [h1, h2, hg n]
  · rw [List.getElem?_eq_none (by omega), List.getElem?_eq_none (by omega)]

lemma hierShape_toggleMidState {h : Hierarchy} {li : Nat} {k : String} {fv : FilterValue}
    (hfv : findValue (getLevel h li) k = some fv) :
    hierShape (toggleMidState h li k) = hierShape h := by
  apply hierShape_ext (length_toggleMidState h li k)
  intro j
  rcases Nat.lt_trichotomy j li with hlt' | heq | hgt
  · rw [getLevel_toggleMidState_lt hfv hlt']
  · rw [heq, getLevel_toggleMidState_self hfv]
    exact map_nodeShape_updateFirst k (fun v => { v with selected := !fv.selected })
      (fun v => rfl) (getLevel h li)
  · have hd : li + 1 + (j - li - 1) = j := by omega
    rw [← hd, getLevel_toggleMidState_below hfv (j - li - 1), cascade_getD, getD_drop,
      List.map_map]
    exact List.map_congr_left (fun v _ => nodeShape_cascade_fun _ _ v)

lemma chainFold_touch (c : List (Nat × String)) : ∀ (s : Hierarchy),
    List.Pairwise (fun a b => b.1 < a.1) c →
    (∀ x ∈ c, ∃ p, findValue (getLevel s x.1) x.2 = some p) →
    ∀ x ∈ c, ∃ cs, getLevel (chainFold s c) x.1 =
      updateFirst x.2 (recomputeFlags cs) (getLevel s x.1) := by
  induction c with
  | nil => intro s _ _ x hx; exact absurd hx (List.not_mem_nil x)
  | cons x0 rest ih =>
      intro s hdec hfound x hx
      have hx0rest : ∀ y ∈ rest, y.1 < x0.1 := (List.pairwise_cons.mp hdec).1
      have hrest := (List.pairwise_cons.mp hdec).2
      obtain ⟨p0, hp0⟩ := hfound x0 (List.mem_cons_self x0 rest)
      have hstep := recomputeStepAt_of_found hp0
      have hlen0 : x0.1 < s.length := findValue_lt_length hp0
      rcases List.mem_cons.mp hx with hhead | htail
      · subst hhead
        refine ⟨resolveChildren s (x.1 + 1) p0.children, ?_⟩
        rw [chainFold_cons,
          getLevel_chainFold_ne _ rest x.1 (fun y hy => by have := hx0rest y hy; omega),
          hstep, getLevel_updateLevel_self _ _ _ hlen0]
      · have hne : x0.1 ≠ x.1 := by have := hx0rest x htail; omega
        have hfound' : ∀ y ∈ rest,
            ∃ p, findValue (getLevel (recomputeStepAt s x0.1 x0.2) y.1) y.2 = some p := by
          intro y hy
          rw [getLevel_recomputeStepAt_ne s x0.1 y.1 x0.2 (by have := hx0rest y hy; omega)]
          exact hfound y (List.mem_cons_of_mem x0 hy)
        obtain ⟨cs, hcs⟩ := ih (recomputeStepAt s x0.1 x0.2) hrest hfound' x htail
        refine ⟨cs, ?_⟩
        rw [chainFold_cons, hcs, getLevel_recomputeStepAt_ne s x0.1 x.1 x0.2 hne]

lemma chainFold_restore (t : Hierarchy) (c : List (Nat × String)) : ∀ (s : Hierarchy),
    List.Pairwise (fun a b => b.1 < a.1) c →
    (∀ j, (∀ x ∈ c, x.1 ≠ j) → getLevel s j = getLevel t j) →
    (∀ x ∈ c, ∃ p cs, findValue (getLevel t x.1) x.2 = some p ∧
      getLevel s x.1 = updateFirst x.2 (recomputeFlags cs) (getLevel t x.1) ∧
      recomputeFlags (resolveChildren t (x.1 + 1) p.children) p = p) →
    ∀ j, getLevel (chainFold s c) j = getLevel t j := by
  induction c with
  | nil => intro s _ hagree _ j; exact hagree j (fun x hx => absurd hx (List.not_mem_nil x))
  | cons x0 rest ih =>
      intro s hdec hagree hdata j
      have hx0rest : ∀ y ∈ rest, y.1 < x0.1 := (List.pairwise_cons.mp hdec).1
      have hrest := (List.pairwise_cons.mp hdec).2
      obtain ⟨p, cs, hpt, hsx, hfix⟩ := hdata x0 (List.mem_cons_self x0 rest)
      have hfs : findValue (getLevel s x0.1) x0.2 = some (recomputeFlags cs p) := by
        rw [hsx, findValue_updateFirst_self x0.2 (recomputeFlags cs)
          (fun v => value_recomputeFlags cs v) (getLevel t x0.1), hpt]
        rfl
      have hlen : x0.1 < s.length := findValue_lt_length hfs
      have hstep := recomputeStepAt_of_found hfs
      have hx1free : getLevel s (x0.1 + 1) = getLevel t (x0.1 + 1) := by
        apply hagree
        intro x hxm
        rcases List.mem_cons.mp hxm with hh | ht
        · subst hh; omega
        · have := hx0rest x ht; omega
      have hrestore : getLevel (recomputeStepAt s x0.1 x0.2) x0.1 = getLevel t x0.1 := by
        rw [hstep, getLevel_updateLevel_self _ _ _ hlen, hsx,
          updateFirst_updateFirst x0.2
            (recomputeFlags (resolveChildren s (x0.1 + 1) (recomputeFlags cs p).children))
            (recomputeFlags cs) (getLevel t x0.1) (fun v => value_recomputeFlags cs v)]
        apply updateFirst_found_fix hpt
        show recomputeFlags (resolveChildren s (x0.1 + 1) (recomputeFlags cs p).children)
          (recomputeFlags cs p) = p
        rw [children_recomputeFlags, resolveChildren_congr hx1free,
          recomputeFlags_eq_of_shape (nodeShape_recomputeFlags cs p)]
        exact hfix
      rw [chainFold_cons]
      refine ih (recomputeStepAt s x0.1 x0.2) hrest ?_ ?_ j
      · intro j' hj'
        by_cases hjx : j' = x0.1
        · rw [hjx]; exact hrestore
        · rw [getLevel_recomputeStepAt_ne s x0.1 j' x0.2 (fun he => hjx he.symm)]
          apply hagree
          intro x hxm
          rcases List.mem_cons.mp hxm with hh | ht
          · subst hh; exact fun he => hjx he.symm
          · exact hj' x ht
      · intro y hy
        obtain ⟨p', cs', hpt', hsx', hfix'⟩ := hdata y (List.mem_cons_of_mem x0 hy)
        refine ⟨p', cs', hpt', ?_, hfix'⟩
        rw [getLevel_recomputeStepAt_ne s x0.1 y.1 x0.2 (by have := hx0rest y hy; omega)]
        exact hsx'

lemma cascade_fun_restore (F : List String) (s1 s2 : Bool) (v : FilterValue)
    (hcond : F.contains v.value = true → s2 = v.selected ∧ v.indeterminate = false) :
    (fun w : FilterValue => if F.contains w.value then
        { w with selected := s2, indeterminate := false } else w)
      ((fun w : FilterValue => if F.contains w.value then
        { w with selected := s1, indeterminate := false } else w) v) = v := by
  show (if F.contains ((if F.contains v.value then
      { v with selected := s1, indeterminate := false } else v) : FilterValue).value then
    { (if F.contains v.value then
        { v with selected := s1, indeterminate := false } else v) with
      selected := s2, indeterminate := false }
    else (if F.contains v.value then
      { v with selected := s1, indeterminate := false } else v)) = v
  by_cases hc : F.contains v.value = true
  · obtain ⟨hs, hi⟩ := hcond hc
    rw [if_pos hc]
    dsimp only
    rw [if_pos hc]
    rw [hs, ← hi]
  · rw [if_neg hc, if_neg hc]

lemma toggle_twice_core (h : Hierarchy) (li : Nat) (k : String) (fv : FilterValue)
    (C : List (Nat × String))
    (hfv : findValue (getLevel h li) k = some fv)
    (hunif : ∀ d, li + 1 + d < h.length → ∀ v ∈ getLevel h (li + 1 + d),
      (cascadeFrontier fv.children (List.drop (li + 1) h) d).contains v.value = true →
      v.selected = fv.selected ∧ v.indeterminate = false)
    (hlt : ∀ x ∈ C, x.1 < li)
    (hdec : List.Pairwise (fun a b => b.1 < a.1) C)
    (hfound : ∀ x ∈ C, ∃ p, findValue (getLevel (toggleMidState h li k) x.1) x.2 = some p)
    (hfix : ∀ x ∈ C, ∀ p, findValue (getLevel h x.1) x.2 = some p →
      recomputeFlags (resolveChildren h (x.1 + 1) p.children) p = p) :
    chainFold (toggleMidState (chainFold (toggleMidState h li k) C) li k) C = h := by
  have hlen : li < h.length := findValue_lt_length hfv
  have hg1li : getLevel (chainFold (toggleMidState h li k) C) li =
      getLevel (toggleMidState h li k) li :=
    getLevel_chainFold_ne _ C li (fun x hx => by have := hlt x hx; omega)
  have hfv1 : findValue (getLevel (chainFold (toggleMidState h li k) C) li) k =
      some { fv with selected := !fv.selected } := by
    rw [hg1li]; exact findValue_toggleMidState_self hfv
  have hm2len : (toggleMidState (chainFold (toggleMidState h li k) C) li k).length = h.length := by
    rw [length_toggleMidState, length_chainFold, length_toggleMidState]
  have hagree : ∀ j, (∀ x ∈ C, x.1 ≠ j) →
      getLevel (toggleMidState (chainFold (toggleMidState h li k) C) li k) j = getLevel h j := by
    intro j hj
    rcases Nat.lt_trichotomy j li with hjlt | hjeq | hjgt
    · rw [getLevel_toggleMidState_lt hfv1 hjlt, getLevel_chainFold_ne _ C j hj,
        getLevel_toggleMidState_lt hfv hjlt]
    · rw [hjeq, getLevel_toggleMidState_self hfv1, hg1li, getLevel_toggleMidState_self hfv,
        updateFirst_updateFirst k
          (fun v => { v with selected := !({ fv with selected := !fv.selected } : FilterValue).selected })
          (fun v => { v with selected := !fv.selected })
          (getLevel h li) (fun v => rfl)]
      apply updateFirst_found_fix hfv
      show { fv with selected := !!fv.selected } = fv
      simp
    · have hd : li + 1 + (j - li - 1) = j := by omega
      rw [← hd, getLevel_toggleMidState_below hfv1 (j - li - 1),
        drop_chainFold (toggleMidState h li k) C (li + 1) (fun x hx => by have := hlt x hx; omega),
        drop_toggleMidState hfv, cascade_getD, cascadeFrontier_cascade, cascade_getD,
        List.map_map, getD_drop]
      apply map_self
      intro v hv
      simp only [Function.comp_apply]
      exact cascade_fun_restore _ (!fv.selected)
        (!({ fv with selected := !fv.selected } : FilterValue).selected) v
        (fun hc => by
          obtain ⟨hs, hi⟩ := hunif (j - li - 1) (mem_getLevel_lt_length hv) v hv hc
          exact ⟨by simp [hs], hi⟩)
  apply hier_ext
  · rw [length_chainFold]; exact hm2len
  · exact chainFold_restore h C (toggleMidState (chainFold (toggleMidState h li k) C) li k)
      hdec hagree (by
        intro x hx
        obtain ⟨p1, hp1⟩ := hfound x hx
        have hmlt : getLevel (toggleMidState h li k) x.1 = getLevel h x.1 :=
          getLevel_toggleMidState_lt hfv (hlt x hx)
        have hpt : findValue (getLevel h x.1) x.2 = some p1 := by rw [← hmlt]; exact hp1
        obtain ⟨cs, hcs⟩ := chainFold_touch C (toggleMidState h li k) hdec hfound x hx
        refine ⟨p1, cs, hpt, ?_, hfix x hx p1 hpt⟩
        rw [getLevel_toggleMidState_lt hfv1 (hlt x hx), hcs, hmlt])

/-- Counterexample to claim C4 as stated: toggling Fruit twice from the
state where its child Apple is selected (Fruit showing indeterminate) does
NOT restore the subtree — the two cascades overwrite every descendant with
Fruit's flipped-then-reflipped `selected` value, so Apple ends unselected
although it was selected before the first toggle. -/
theorem toggle_twice_changes_descendant_cex :
    findValue (getLevel egIndetTree 1) "Apple" =
      some { value := "Apple", identity := 0, selected := true, indeterminate := false,
             children := [], parentValue := some "Fruit" } ∧
    findValue (getLevel (toggleHierarchyValue 5
        (toggleHierarchyValue 5 egIndetTree 0 "Fruit") 0 "Fruit") 1) "Apple" =
      some { value := "Apple", identity := 0, selected := false, indeterminate := false,
             children := [], parentValue := some "Fruit" } := by
  decide

/-- Claim C4 (amended): toggling the same node twice restores the whole
tree — the node, its subtree and its ancestor chain — provided (i) the
node's strict descendants were uniform w.r.t. the node (each cascade-reached
descendant had `selected` equal to the node's `selected` and
`indeterminate = false`) and (ii) every ancestor on the visited chain was
already consistent with the tri-state rule (its flags were a fixed point of
the recomputation from its children).  Both conditions hold in the steady
states the UI produces; without (i) the cascades overwrite the subtree with
the node's original `selected` value (see the counterexample), and the
restored state is then not the original.  The chain-structure hypotheses
(levels strictly above the node, strictly decreasing) hold for every
`processData`-built tree. -/
theorem toggle_toggle_restores (fuel : Nat) (h : Hierarchy) (li : Nat) (k : String)
    (fv : FilterValue)
    (hfv : findValue (getLevel h li) k = some fv)
    (hunif : ∀ d, li + 1 + d < h.length → ∀ v ∈ getLevel h (li + 1 + d),
      (cascadeFrontier fv.children (List.drop (li + 1) h) d).contains v.value = true →
      v.selected = fv.selected ∧ v.indeterminate = false)
    (hlt : ∀ pk, fv.parentValue = some pk →
      ∀ x ∈ parentChain fuel (toggleMidState h li k) pk, x.1 < li)
    (hdec : ∀ pk, fv.parentValue = some pk →
      List.Pairwise (fun a b => b.1 < a.1) (parentChain fuel (toggleMidState h li k) pk))
    (hfix : ∀ pk, fv.parentValue = some pk →
      ∀ x ∈ parentChain fuel (toggleMidState h li k) pk, ∀ p,
        findValue (getLevel h x.1) x.2 = some p →
        recomputeFlags (resolveChildren h (x.1 + 1) p.children) p = p) :
    toggleHierarchyValue fuel (toggleHierarchyValue fuel h li k) li k = h := by
  cases hpv : fv.parentValue with
  | none =>
      have h1eq : toggleHierarchyValue fuel h li k = toggleMidState h li k := by
        rw [toggle_of_found hfv, hpv]
      have hfv1 : findValue (getLevel (toggleHierarchyValue fuel h li k) li) k =
          some { fv with selected := !fv.selected } := by
        rw [h1eq]; exact findValue_toggleMidState_self hfv
      have hpv1 : ({ fv with selected := !fv.selected } : FilterValue).parentValue = none := hpv
      have h2eq : toggleHierarchyValue fuel (toggleHierarchyValue fuel h li k) li k =
          toggleMidState (toggleHierarchyValue fuel h li k) li k := by
        rw [toggle_of_found hfv1, hpv1]
      rw [h2eq, h1eq]
      exact toggle_twice_core h li k fv [] hfv hunif
        (fun x hx => absurd hx (List.not_mem_nil x)) List.Pairwise.nil
        (fun x hx => absurd hx (List.not_mem_nil x))
        (fun x hx => absurd hx (List.not_mem_nil x))
  | some pk =>
      have h1eq : toggleHierarchyValue fuel h li k =
          chainFold (toggleMidState h li k) (parentChain fuel (toggleMidState h li k) pk) := by
        rw [toggle_of_found hfv, hpv]
        dsimp only
        rw [updateParent_eq_chainFold]
      have hfv1 : findValue (getLevel (toggleHierarchyValue fuel h li k) li) k =
          some { fv with selected := !fv.selected } := by
        rw [h1eq, getLevel_chainFold_ne _ _ li (fun x hx => by
          have := hlt pk hpv x hx; omega)]
        exact findValue_toggleMidState_self hfv
      have hpv1 : ({ fv with selected := !fv.selected } : FilterValue).parentValue =
          some pk := hpv
      have hshape : hierShape (toggleMidState (toggleHierarchyValue fuel h li k) li k) =
          hierShape (toggleMidState h li k) := by
        rw [hierShape_toggleMidState hfv1, h1eq, hierShape_chainFold,
          hierShape_toggleMidState hfv]
      have h2eq : toggleHierarchyValue fuel (toggleHierarchyValue fuel h li k) li k =
          chainFold (toggleMidState (toggleHierarchyValue fuel h li k) li k)
            (parentChain fuel (toggleMidState h li k) pk) := by
        rw [toggle_of_found hfv1, hpv1]
        dsimp only
        rw [updateParent_eq_chainFold, parentChain_shape hshape]
      rw [h2eq, h1eq]
      exact toggle_twice_core h li k fv (parentChain fuel (toggleMidState h li k) pk) hfv hunif
        (hlt pk hpv) (hdec pk hpv) (parentChain_found fuel (toggleMidState h li k) pk)
        (hfix pk hpv)

/-- Witness for the amended C4: toggling Apple twice in the concrete
two-level tree (where Apple has no children and its ancestor Fruit has
flags consistent with its unselected children) returns the exact original
tree. -/
theorem toggle_toggle_restores_witness :
    toggleHierarchyValue 5 (toggleHierarchyValue 5 egTree 1 "Apple") 1 "Apple" = egTree := by
  apply toggle_toggle_restores 5 egTree 1 "Apple"
    { value := "Apple", identity := 0, selected := false, indeterminate := false,
      children := [], parentValue := some "Fruit" }
    (by decide)
    (fun d hd => absurd hd (by
      have hlen2 : egTree.length = 2 := rfl
      omega))
    (fun pk hpk => by cases hpk; decide)
    (fun pk hpk => by cases hpk; decide)
    (fun pk hpk => by
      cases hpk
      intro x hx p hp
      have hch : parentChain 5 (toggleMidState egTree 1 "Apple") "Fruit" = [(0, "Fruit")] := by
        decide
      rw [hch] at hx
      have hxe : x = (0, "Fruit") := List.mem_singleton.mp hx
      subst hxe
      dsimp only at hp ⊢
      have heq : findValue (getLevel egTree 0) "Fruit" =
          some { value := "Fruit", identity := 0, selected := false, indeterminate := false,
                 children := ["Apple", "Banana"], parentValue := none } := by decide
      rw [heq] at hp
      injection hp with hp
      subst hp
      decide)
